import Mathlib

/-!
# Aggregated channel features: catalog generation and pooled evaluation

A shallow embedding of `modules/xobjdetect/src/acffeature.cpp`
(`generateFeatures`, `ACFFeatureEvaluatorImpl`, the bucket step of
`computeChannels`) and theorems about it.

Modelling conventions.

* C++ `int` values are `Int`; `int / int` is `Int.tdiv` (truncation toward
  zero).  An `int` product, sum or increment that leaves the 32-bit range is
  reduced by `wrapInt32` to the value the two's-complement machine arithmetic
  gives (signed overflow is undefined behaviour in C++).
* A failing `CV_Assert` is `Err.assertFailed`.  An access outside a vector or
  a matrix buffer (unchecked in the source, undefined behaviour in C++) is
  `Err.outOfBounds`.
* `float` channel values are rationals (every finite `float` is one); the cast
  `(int)v` is truncation toward zero where the truncated value is an `int`.
  Rounding in `float` arithmetic is not modelled.
-/

namespace cv.xobjdetect

/-- Outcome of an operation that does not complete normally. -/
inductive Err where
  | assertFailed
  | outOfBounds
  deriving DecidableEq, Repr

/-- The `cv::Size` pair of `int`s. -/
structure Size where
  width : Int
  height : Int
  deriving DecidableEq, Repr

/-- The `cv::Point3i` triple of `int`s; a feature is `(x, y, channel)`. -/
structure Point3i where
  x : Int
  y : Int
  z : Int
  deriving DecidableEq, Repr

/-! ## Machine integers -/

/-- The value of a 32-bit `int` computation whose exact result is `z`:
`z` reduced modulo `2^32` into `[-2^31, 2^31)`. -/
def wrapInt32 (z : Int) : Int :=
  (z + 2147483648) % 4294967296 - 2147483648

/-- The conversion `(int)v` of a `float`: truncation toward zero.  When the
truncated value is not an `int` the conversion is undefined in C++; the model
takes the value the x86 conversion instruction gives, `INT_MIN`. -/
def castToInt (v : ℚ) : Int :=
  let t := Int.tdiv v.num v.den
  if -2147483648 ≤ t ∧ t ≤ 2147483647 then t else -2147483648

/-! ## generateFeatures -/

/-- Innermost loop of `generateFeatures`,
`for (n = 0; n < 10; ++n) { push_back; if ((cur_count += 1) == count) break; }`,
run over the remaining channel indices `ns`.  The state is the vector built
so far and `cur_count`. -/
def channelLoop (count x y : Int) :
    List Int → List Point3i × Int → List Point3i × Int
  | [], st => st
  | n :: ns, (features, cur_count) =>
      let features := features ++ [Point3i.mk x y n]
      let cur_count := wrapInt32 (cur_count + 1)
      if cur_count = count then (features, cur_count)
      else channelLoop count x y ns (features, cur_count)

/-- The index values of `for (int i = 0; i < bound; ++i)`. -/
def upTo (bound : Int) : List Int :=
  (List.range bound.toNat).map Int.ofNat

/-- Middle loop of `generateFeatures`: `for (y = 0; y < height / 4; ++y)`. -/
def rowLoop (count height x : Int) (st : List Point3i × Int) : List Point3i × Int :=
  (upTo (Int.tdiv height 4)).foldl (fun st y => channelLoop count x y (upTo 10) st) st

/-- Outer loop of `generateFeatures`: `for (x = 0; x < width / 4; ++x)`. -/
def columnLoop (count width height : Int) (st : List Point3i × Int) : List Point3i × Int :=
  (upTo (Int.tdiv width 4)).foldl (fun st x => rowLoop count height x st) st

/-- The function `generateFeatures(Size window_size, int count)`. -/
def generateFeatures (window_size : Size) (count : Int) : Except Err (List Point3i) :=
  if ¬ (count > 0) then Except.error Err.assertFailed
  else
    let cur_count : Int := 0
    let max_count : Int :=
      Int.tdiv (wrapInt32 (window_size.width * window_size.height)) 16
    let count := min count max_count
    let features : List Point3i := []
    Except.ok (columnLoop count window_size.width window_size.height (features, cur_count)).1

/-! ## Matrices -/

/-- A two-dimensional `cv::Mat` with `rows × cols` cells; `data r c` is the
cell at row `r`, column `c`.  Only cells with `r < rows` and `c < cols` belong
to the matrix. -/
structure Mat (α : Type) where
  rows : Nat
  cols : Nat
  data : Nat → Nat → α

/-- The constructor `Mat_<int>(rows, cols)`.  The cells of a fresh matrix are
indeterminate in C++; the model fills them with `0`. -/
def Mat.create (rows cols : Nat) : Mat Int :=
  { rows := rows, cols := cols, data := fun _ _ => 0 }

/-- The read `m.at<T>(r, c)`; the source does not check the indices. -/
def Mat.at_ {α : Type} (m : Mat α) (r c : Int) : Except Err α :=
  if 0 ≤ r ∧ r < m.rows ∧ 0 ≤ c ∧ c < m.cols then Except.ok (m.data r.toNat c.toNat)
  else Except.error Err.outOfBounds

/-- The write `m(r, c) = v`; the source does not check the indices. -/
def Mat.set {α : Type} (m : Mat α) (r c : Int) (v : α) : Except Err (Mat α) :=
  if 0 ≤ r ∧ r < m.rows ∧ 0 ≤ c ∧ c < m.cols then
    Except.ok { m with data := fun i j => if i = r.toNat ∧ j = c.toNat then v else m.data i j }
  else Except.error Err.outOfBounds

/-- The library call `dst.setTo(value)` of OpenCV, which is not part of this
source, for a single-channel `int` destination, after the library's
documentation: it sets the elements of the existing destination to one scalar
value.  An empty destination is returned as it is; a `value` that is not a
single element is refused by the library's scalar check; the destination is
never resized and `value` is never copied into it element by element. -/
def Mat.setTo (dst value : Mat Int) : Except Err (Mat Int) :=
  if dst.rows = 0 ∨ dst.cols = 0 then Except.ok dst
  else if value.rows = 1 ∧ value.cols = 1 then
    Except.ok { dst with data := fun _ _ => value.data 0 0 }
  else Except.error Err.assertFailed

/-- The index values of `for (int i = start; i < bound; i += step)`, at most
`fuel` of them. -/
def stepIndices (bound step : Nat) : Nat → Nat → List Nat
  | 0, _ => []
  | fuel + 1, i =>
      if i < bound then i :: stepIndices bound step fuel (i + step) else []

/-- The index values of `for (int i = 0; i < bound; i += 4)`.  The loop runs
fewer than `bound + 1` times. -/
def blockStarts (bound : Nat) : List Nat :=
  stepIndices bound 4 bound 0

/-- The two innermost loops of `setChannels`: the `int sum` over the cells
`row .. row+3`, `col .. col+3`, each cast to `int` before it is added. -/
def blockSum (channel : Mat ℚ) (row col : Nat) : Except Err Int :=
  (List.range' row 4).foldlM (fun (sum : Int) (cell_row : Nat) =>
    (List.range' col 4).foldlM (fun (sum : Int) (cell_col : Nat) => do
      let v ← channel.at_ (cell_row : Int) (cell_col : Int)
      pure (wrapInt32 (sum + castToInt v))) sum) 0

/-- The body of the channel loop of `setChannels`: the pooled matrix
`acf_channel` of one channel. -/
def poolChannel (channel : Mat ℚ) : Except Err (Mat Int) :=
  let acf_channel := Mat.create (channel.rows / 4) (channel.cols / 4)
  (blockStarts channel.rows).foldlM (fun (acf_channel : Mat Int) (row : Nat) =>
    (blockStarts channel.cols).foldlM (fun (acf_channel : Mat Int) (col : Nat) => do
      let sum ← blockSum channel row col
      acf_channel.set ((row / 4 : Nat) : Int) ((col / 4 : Nat) : Int) sum) acf_channel) acf_channel

/-- The state of an `ACFFeatureEvaluatorImpl`. -/
structure ACFFeatureEvaluatorImpl where
  features_ : List Point3i
  channels_ : List (Mat Int)
  position_ : Size

/-- The constructor, through `createACFFeatureEvaluator(features)`. -/
def createACFFeatureEvaluator (features : List Point3i) : Except Err ACFFeatureEvaluatorImpl :=
  if features.length > 0 then
    Except.ok { features_ := features, channels_ := [], position_ := ⟨0, 0⟩ }
  else Except.error Err.assertFailed

/-- The loop `for (i = 0; i < ch.size(); ++i)` of `setChannels` over the
remaining channels.  The state reached is returned also when a step does not
complete. -/
def channelsLoop (self : ACFFeatureEvaluatorImpl) :
    List (Mat ℚ) → Except Err Unit × ACFFeatureEvaluatorImpl
  | [] => (Except.ok (), self)
  | channel :: rest =>
      match poolChannel channel with
      | Except.error e => (Except.error e, self)
      | Except.ok acf_channel =>
          channelsLoop { self with channels_ := self.channels_ ++ [acf_channel] } rest

/-- The method `setChannels(channels)`.  The state reached is returned also
when the call fails. -/
def setChannels (self : ACFFeatureEvaluatorImpl) (channels : List (Mat ℚ)) :
    Except Err Unit × ACFFeatureEvaluatorImpl :=
  let self := { self with channels_ := [] }
  let ch := channels
  if ¬ (ch.length = 10) then (Except.error Err.assertFailed, self)
  else channelsLoop self ch

/-- The method `setPosition(position)`. -/
def setPosition (self : ACFFeatureEvaluatorImpl) (position : Size) : ACFFeatureEvaluatorImpl :=
  { self with position_ := position }

/-- The method `evaluate(feature_ind)`. -/
def evaluate (self : ACFFeatureEvaluatorImpl) (feature_ind : Nat) : Except Err Int :=
  if ¬ (self.channels_.length = 10) then Except.error Err.assertFailed
  else if ¬ (feature_ind < self.features_.length) then Except.error Err.assertFailed
  else
    match self.features_[feature_ind]? with
    | none => Except.error Err.outOfBounds
    | some feature =>
        let x := feature.x
        let y := feature.y
        let n := feature.z
        if n < 0 then Except.error Err.outOfBounds
        else
          match self.channels_[n.toNat]? with
          | none => Except.error Err.outOfBounds
          | some channel => channel.at_ y x

/-- The local `feature_vals` of `evaluateAll` after its loop: the
`1 × features_.size()` matrix whose cell `(0, i)` is written with
`evaluate(i)`. -/
def feature_vals (self : ACFFeatureEvaluatorImpl) : Except Err (Mat Int) :=
  let feature_vals := Mat.create 1 self.features_.length
  (List.range self.features_.length).foldlM (fun (feature_vals : Mat Int) (i : Nat) => do
    let v ← evaluate self i
    feature_vals.set 0 (i : Int) v) feature_vals

/-- The method `evaluateAll(feature_values)`: the loop that fills
`feature_vals`, then `feature_values.setTo(feature_vals)`.  The library call
`setTo` is a parameter; the result is the output array after the call. -/
def evaluateAll (setTo : Mat Int → Mat Int → Except Err (Mat Int))
    (self : ACFFeatureEvaluatorImpl) (feature_values : Mat Int) : Except Err (Mat Int) := do
  let feature_vals ← feature_vals self
  setTo feature_values feature_vals

/-! ## The bucket step of computeChannels -/

/-- The bucket computation of `computeChannels` on an orientation `angle` in
degrees: `if (angle < 0) angle += 180; int ind = (int)(angle / 30);`.  The
source computes `angle + 180` and `angle / 30` in `float`; the model computes
them exactly. -/
def histIndex (angle : ℚ) : Int :=
  let angle := if angle < 0 then angle + 180 else angle
  castToInt (angle / 30)

/-- The write `hist(row, col)[ind] = v` into a `Vec6f`, the six histogram
buckets of one pixel; the source does not check the index. -/
def Vec6f.set (hist : Fin 6 → ℚ) (ind : Int) (v : ℚ) : Except Err (Fin 6 → ℚ) :=
  if 0 ≤ ind ∧ ind < 6 then
    Except.ok (fun b => if (b.val : Int) = ind then v else hist b)
  else Except.error Err.outOfBounds

/-- The body of the pixel loop of `computeChannels` after the orientation
`angle` of the pixel has been computed: the gradient magnitude `grad` is
stored in the bucket of the angle. -/
def histStep (hist : Fin 6 → ℚ) (angle grad : ℚ) : Except Err (Fin 6 → ℚ) :=
  let ind := histIndex angle
  Vec6f.set hist ind grad

/-! ## Reference notions used in the statements -/

/-- Lexicographic order on `(x, y, channel)`. -/
def Point3i.lexLt (a b : Point3i) : Prop :=
  a.x < b.x ∨ (a.x = b.x ∧ (a.y < b.y ∨ (a.y = b.y ∧ a.z < b.z)))

/-- The ten triples of one grid cell, channel index ascending. -/
def cellTriples (x y : Int) : List Point3i :=
  (upTo 10).map (fun n => Point3i.mk x y n)

/-- The canonical enumeration of the grid: `x` outer, `y` middle, channel inner. -/
def canonical (width height : Int) : List Point3i :=
  (upTo (Int.tdiv width 4)).flatMap fun x =>
    (upTo (Int.tdiv height 4)).flatMap fun y => cellTriples x y

/-- A value that a 32-bit `int` can hold. -/
def fitsInt32 (z : Int) : Prop :=
  -2147483648 ≤ z ∧ z ≤ 2147483647

/-- Truncation of a rational toward zero: down for `v ≥ 0`, up for `v < 0`. -/
def truncTowardZero (v : ℚ) : Int :=
  if 0 ≤ v then ⌊v⌋ else ⌈v⌉

/-- The sum, as the code forms it before reducing to `int`, of the 16 casts
`(int)v` of the block of pooled cell `(r, c)`. -/
def castBlockSum (channel : Mat ℚ) (r c : Nat) : Int :=
  ∑ i in Finset.range 4, ∑ j in Finset.range 4, castToInt (channel.data (4 * r + i) (4 * c + j))

/-- The `int` that the block loops of `setChannels` store for pooled cell
`(r, c)`: the sum of the 16 casts, reduced to 32 bits. -/
def pooledValue (channel : Mat ℚ) (r c : Nat) : Int :=
  wrapInt32 (castBlockSum channel r c)

/-- The block sum of the pooled cell `(r, c)`, each of the 16 source values
truncated toward zero before it is added. -/
def truncBlockSum (channel : Mat ℚ) (r c : Nat) : Int :=
  ∑ i in Finset.range 4, ∑ j in Finset.range 4,
    truncTowardZero (channel.data (4 * r + i) (4 * c + j))

/-- The pooled cell `(r, c)` in the spec's words: the sum of the 16 source
values, that sum truncated to an integer. -/
def sumThenTruncate (channel : Mat ℚ) (r c : Nat) : Int :=
  truncTowardZero
    (∑ i in Finset.range 4, ∑ j in Finset.range 4, channel.data (4 * r + i) (4 * c + j))

/-- The exact sum of the 16 source values of the block of pooled cell `(r, c)`. -/
def exactBlockSum (channel : Mat ℚ) (r c : Nat) : ℚ :=
  ∑ i in Finset.range 4, ∑ j in Finset.range 4, channel.data (4 * r + i) (4 * c + j)

/-- The value of `cur_count` after the channel loop of `generateFeatures` has
run for one grid cell, entered with `cur_count = cur`, as long as `cur_count`
stays an `int`: the loop stops at the target `count` when it meets it among
its ten increments. -/
def countAfterCell (count cur : Int) : Int :=
  if cur < count ∧ count ≤ cur + 10 then count else cur + 10

/-! ## Concrete inputs -/

/-- A `4 × 4` channel filled with the value `1/2`. -/
def halfChannel : Mat ℚ :=
  { rows := 4, cols := 4, data := fun _ _ => 1 / 2 }

/-- A `4 × 4` channel filled with the value `3`. -/
def threeChannel : Mat ℚ :=
  { rows := 4, cols := 4, data := fun _ _ => 3 }

/-- A `4 × 4` channel filled with the value `200000000`. -/
def bigChannel : Mat ℚ :=
  { rows := 4, cols := 4, data := fun _ _ => 200000000 }

/-- A `6 × 6` channel filled with zeros. -/
def zeroChannel6 : Mat ℚ :=
  { rows := 6, cols := 6, data := fun _ _ => 0 }

/-- A `2 × 2` pooled channel whose cell `(r, c)` holds `10 * r + c`. -/
def demoPooled : Mat Int :=
  { rows := 2, cols := 2, data := fun r c => 10 * (r : Int) + (c : Int) }

/-- An evaluator with a two-entry catalog and no channels bound. -/
def freshEvaluator : ACFFeatureEvaluatorImpl :=
  { features_ := [Point3i.mk 1 0 3, Point3i.mk 0 1 0], channels_ := [], position_ := ⟨0, 0⟩ }

/-- An evaluator with a two-entry catalog and ten bound pooled channels. -/
def demoEvaluator : ACFFeatureEvaluatorImpl :=
  { features_ := [Point3i.mk 1 0 3, Point3i.mk 0 1 0],
    channels_ := List.replicate 10 demoPooled, position_ := ⟨0, 0⟩ }

/-- An evaluator with a three-entry catalog and ten bound pooled channels. -/
def threeEvaluator : ACFFeatureEvaluatorImpl :=
  { features_ := [Point3i.mk 0 0 0, Point3i.mk 0 0 1, Point3i.mk 0 0 2],
    channels_ := List.replicate 10 demoPooled, position_ := ⟨0, 0⟩ }

/-- An output array that has not been allocated: `0 × 0`. -/
def emptyOutput : Mat Int :=
  Mat.create 0 0

/-- An output array allocated as `1 × 2`, filled with `7`. -/
def allocatedOutput : Mat Int :=
  { rows := 1, cols := 2, data := fun _ _ => 7 }

/-! ## Machine integers -/

theorem wrapInt32_of_fits (z : Int) (h : fitsInt32 z) : wrapInt32 z = z := by
  unfold fitsInt32 at h
  unfold wrapInt32
  omega

theorem wrapInt32_fits (z : Int) : fitsInt32 (wrapInt32 z) := by
  unfold fitsInt32 wrapInt32
  omega

theorem wrapInt32_add_left (a b : Int) : wrapInt32 (wrapInt32 a + b) = wrapInt32 (a + b) := by
  unfold wrapInt32
  omega

/-! ## The catalog generator -/

theorem channelLoop_emits (count x y : Int) (ns : List Int) (st : List Point3i × Int) :
    ∃ em cur, channelLoop count x y ns st = (st.1 ++ em, cur) ∧
      em <+: ns.map (fun n => Point3i.mk x y n) ∧ (ns ≠ [] → em ≠ []) := by
  induction ns generalizing st with
  | nil => exact ⟨[], st.2, by simp [channelLoop], List.nil_prefix, fun h => absurd rfl h⟩
  | cons n ns ih =>
    obtain ⟨fs, cur⟩ := st
    by_cases hc : wrapInt32 (cur + 1) = count
    · refine ⟨[Point3i.mk x y n], wrapInt32 (cur + 1), by simp [channelLoop, hc], ?_,
        fun _ => by simp⟩
      simp [List.prefix_cons_inj]
    · obtain ⟨em, cur', hem, hpre, -⟩ := ih (fs ++ [Point3i.mk x y n], wrapInt32 (cur + 1))
      refine ⟨Point3i.mk x y n :: em, cur', ?_, ?_, fun _ => by simp⟩
      · simp only [channelLoop, hc, if_false, hem]
        simp only [List.append_assoc, List.singleton_append]
      · simpa [List.prefix_cons_inj] using hpre

theorem rowLoop_emits_aux (count x : Int) (ys : List Int) (st : List Point3i × Int) :
    ∃ em cur, ys.foldl (fun st y => channelLoop count x y (upTo 10) st) st
        = (st.1 ++ em, cur) ∧
      em.Sublist (ys.flatMap fun y => cellTriples x y) ∧ (ys ≠ [] → em ≠ []) := by
  induction ys generalizing st with
  | nil => exact ⟨[], st.2, by simp, by simp, fun h => absurd rfl h⟩
  | cons y ys ih =>
    obtain ⟨em₁, c₁, h₁, p₁, n₁⟩ := channelLoop_emits count x y (upTo 10) st
    obtain ⟨em₂, c₂, h₂, p₂, -⟩ := ih (st.1 ++ em₁, c₁)
    refine ⟨em₁ ++ em₂, c₂, ?_, ?_, ?_⟩
    · simp only [List.foldl_cons, h₁, h₂]
      simp
    · simpa [List.flatMap_cons] using List.Sublist.append p₁.sublist p₂
    · intro _
      have : em₁ ≠ [] := n₁ (by decide)
      simp [this]

theorem rowLoop_emits (count height x : Int) (st : List Point3i × Int) :
    ∃ em cur, rowLoop count height x st = (st.1 ++ em, cur) ∧
      em.Sublist ((upTo (Int.tdiv height 4)).flatMap fun y => cellTriples x y) ∧
      (upTo (Int.tdiv height 4) ≠ [] → em ≠ []) :=
  rowLoop_emits_aux count x _ st

theorem columnLoop_emits_aux (count height : Int) (xs : List Int) (st : List Point3i × Int) :
    ∃ em cur, xs.foldl (fun st x => rowLoop count height x st) st
        = (st.1 ++ em, cur) ∧
      em.Sublist (xs.flatMap fun x =>
        (upTo (Int.tdiv height 4)).flatMap fun y => cellTriples x y) ∧
      (xs ≠ [] → upTo (Int.tdiv height 4) ≠ [] → em ≠ []) := by
  induction xs generalizing st with
  | nil => exact ⟨[], st.2, by simp, by simp, fun h => absurd rfl h⟩
  | cons x xs ih =>
    obtain ⟨em₁, c₁, h₁, p₁, n₁⟩ := rowLoop_emits count height x st
    obtain ⟨em₂, c₂, h₂, p₂, -⟩ := ih (st.1 ++ em₁, c₁)
    refine ⟨em₁ ++ em₂, c₂, ?_, ?_, ?_⟩
    · simp only [List.foldl_cons, h₁, h₂]
      simp
    · simpa [List.flatMap_cons] using List.Sublist.append p₁ p₂
    · intro _ hy
      have : em₁ ≠ [] := n₁ hy
      simp [this]

/-- Whatever the target count, the generated vector is a subsequence of the
canonical enumeration. -/
theorem columnLoop_sublist (count width height : Int) :
    (columnLoop count width height ([], 0)).1.Sublist (canonical width height) := by
  obtain ⟨em, cur, h, p, -⟩ :=
    columnLoop_emits_aux count height (upTo (Int.tdiv width 4)) ([], 0)
  unfold columnLoop canonical
  rw [h]
  simpa using p

theorem generateFeatures_ok (ws : Size) (count : Int) (h : count > 0) :
    generateFeatures ws count = Except.ok
      (columnLoop (min count (Int.tdiv (wrapInt32 (ws.width * ws.height)) 16))
        ws.width ws.height ([], 0)).1 := by
  simp [generateFeatures, h]

theorem mem_upTo (b i : Int) : i ∈ upTo b ↔ 0 ≤ i ∧ i < b := by
  unfold upTo
  simp only [List.mem_map, List.mem_range]
  constructor
  · rintro ⟨a, ha, rfl⟩
    constructor
    · exact Int.ofNat_nonneg a
    · have : (a : Int) < (b.toNat : Int) := by exact_mod_cast ha
      have hb : (b.toNat : Int) = max b 0 := Int.toNat_eq_max b
      change (a : Int) < b
      omega
  · rintro ⟨h0, hb⟩
    refine ⟨i.toNat, ?_, ?_⟩
    · omega
    · change (i.toNat : Int) = i
      omega

theorem length_upTo (b : Int) : (upTo b).length = b.toNat := by
  simp [upTo]

theorem pairwise_upTo (b : Int) : (upTo b).Pairwise (· < ·) := by
  unfold upTo
  rw [List.pairwise_map]
  exact (List.pairwise_lt_range _).imp (fun h => Int.ofNat_lt.mpr h)

theorem mem_canonical (w h : Int) (p : Point3i) :
    p ∈ canonical w h ↔
      (0 ≤ p.x ∧ p.x < Int.tdiv w 4) ∧ (0 ≤ p.y ∧ p.y < Int.tdiv h 4) ∧ (0 ≤ p.z ∧ p.z < 10) := by
  simp only [canonical, cellTriples, List.mem_flatMap, List.mem_map, mem_upTo]
  constructor
  · rintro ⟨x, hx, y, hy, n, hn, rfl⟩
    exact ⟨hx, hy, hn⟩
  · rintro ⟨hx, hy, hn⟩
    exact ⟨p.x, hx, p.y, hy, p.z, hn, rfl⟩

theorem length_canonical (w h : Int) :
    (canonical w h).length = (Int.tdiv w 4).toNat * (Int.tdiv h 4).toNat * 10 := by
  simp [canonical, cellTriples, List.length_flatMap, length_upTo, Function.comp_def,
    List.map_const', List.sum_const_nat, mul_assoc]

theorem pairwise_canonical (w h : Int) : (canonical w h).Pairwise Point3i.lexLt := by
  unfold canonical
  rw [List.pairwise_flatMap]
  constructor
  · intro x _
    rw [List.pairwise_flatMap]
    constructor
    · intro y _
      unfold cellTriples
      rw [List.pairwise_map]
      exact (pairwise_upTo 10).imp (fun h => Or.inr ⟨rfl, Or.inr ⟨rfl, h⟩⟩)
    · refine (pairwise_upTo _).imp ?_
      intro y₁ y₂ hy p hp q hq
      simp only [cellTriples, List.mem_map] at hp hq
      obtain ⟨_, _, rfl⟩ := hp
      obtain ⟨_, _, rfl⟩ := hq
      exact Or.inr ⟨rfl, Or.inl hy⟩
  · refine (pairwise_upTo _).imp ?_
    intro x₁ x₂ hx p hp q hq
    simp only [cellTriples, List.mem_flatMap, List.mem_map] at hp hq
    obtain ⟨_, _, _, _, rfl⟩ := hp
    obtain ⟨_, _, _, _, rfl⟩ := hq
    exact Or.inl hx

/-! ## Claims about `generateFeatures` -/

set_option maxRecDepth 100000 in
/-- C1 (evaluation at the spec's scenario): `generateFeatures((32,32), 1000)`
returns 634 feature definitions, not `min(1000, 8*8*10) = 640`. -/
theorem generateFeatures_32_32_1000_length :
    ∃ fs, generateFeatures ⟨32, 32⟩ 1000 = Except.ok fs ∧ fs.length = 634 ∧
      min (1000 : Int) (Int.tdiv 32 4 * Int.tdiv 32 4 * 10) = 640 :=
  ⟨_, rfl, by decide!, by decide⟩

/-- C2 (evaluation at a failing input): `generateFeatures((8,8), 1)` returns
31 feature definitions, more than the requested count `1`. -/
theorem generateFeatures_8_8_1_length :
    ∃ fs, generateFeatures ⟨8, 8⟩ 1 = Except.ok fs ∧ fs.length = 31 ∧ ¬ fs.length ≤ 1 :=
  ⟨_, rfl, by decide, by decide⟩

/-- C3 (evaluation at a failing input): `generateFeatures((8,4), 1)` emits
`(0,0,0)`, leaves the channel loop, and then emits all ten triples of the
next cell; the result is not a prefix of the canonical enumeration. -/
theorem generateFeatures_8_4_1_not_prefix :
    ∃ fs, generateFeatures ⟨8, 4⟩ 1 = Except.ok fs ∧
      fs = Point3i.mk 0 0 0 :: cellTriples 1 0 ∧ ¬ fs <+: canonical 8 4 :=
  ⟨_, rfl, by decide, by decide⟩

/-- C4: for a window with `w > 0`, `h > 0` and a count `k > 0`,
`generateFeatures((w,h), k)` returns a catalog of at most `(w/4)*(h/4)*10`
entries (integer division). -/
theorem generateFeatures_length_le_grid (w h k : Int) (hw : 0 < w) (hh : 0 < h) (hk : 0 < k) :
    ∃ fs, generateFeatures ⟨w, h⟩ k = Except.ok fs ∧
      (fs.length : Int) ≤ Int.tdiv w 4 * Int.tdiv h 4 * 10 := by
  refine ⟨_, generateFeatures_ok ⟨w, h⟩ k hk, ?_⟩
  have hlen := (columnLoop_sublist (min k (Int.tdiv (wrapInt32 (w * h)) 16)) w h).length_le
  rw [length_canonical] at hlen
  have h1 : 0 ≤ Int.tdiv w 4 := Int.tdiv_nonneg hw.le (by decide)
  have h2 : 0 ≤ Int.tdiv h 4 := Int.tdiv_nonneg hh.le (by decide)
  have e1 : ((Int.tdiv w 4).toNat : Int) = Int.tdiv w 4 := Int.toNat_of_nonneg h1
  have e2 : ((Int.tdiv h 4).toNat : Int) = Int.tdiv h 4 := Int.toNat_of_nonneg h2
  have hcast : ((columnLoop (min k (Int.tdiv (wrapInt32 (w * h)) 16)) w h ([], 0)).1.length : Int)
      ≤ (((Int.tdiv w 4).toNat * (Int.tdiv h 4).toNat * 10 : Nat) : Int) := by
    exact_mod_cast hlen
  simpa [e1, e2] using hcast

/-- Witness for C4 at the window `(32,32)` with count `1000`. -/
theorem generateFeatures_length_le_grid_witness :
    ∃ fs, generateFeatures ⟨32, 32⟩ 1000 = Except.ok fs ∧
      (fs.length : Int) ≤ Int.tdiv 32 4 * Int.tdiv 32 4 * 10 :=
  generateFeatures_length_le_grid 32 32 1000 (by decide) (by decide) (by decide)

/-- C5: for every window and every count `k > 0`, the catalog returned by
`generateFeatures` is strictly ascending in the lexicographic order on
`(x, y, channel)`, and so has no duplicate triple. -/
theorem generateFeatures_strictly_ascending (w h k : Int) (hk : 0 < k) :
    ∃ fs, generateFeatures ⟨w, h⟩ k = Except.ok fs ∧
      fs.Pairwise Point3i.lexLt ∧ fs.Nodup := by
  refine ⟨_, generateFeatures_ok ⟨w, h⟩ k hk, ?_⟩
  have hp := (pairwise_canonical w h).sublist
    (columnLoop_sublist (min k (Int.tdiv (wrapInt32 (w * h)) 16)) w h)
  refine ⟨hp, ?_⟩
  refine hp.imp_of_mem ?_
  intro a b _ _ hab heq
  subst heq
  unfold Point3i.lexLt at hab
  omega

/-- Witness for C5 at the window `(8,8)` with count `3`. -/
theorem generateFeatures_strictly_ascending_witness :
    ∃ fs, generateFeatures ⟨8, 8⟩ 3 = Except.ok fs ∧
      fs.Pairwise Point3i.lexLt ∧ fs.Nodup :=
  generateFeatures_strictly_ascending 8 8 3 (by decide)

/-- C6: for every window `(w,h)` and every count `k > 0`, each feature
definition `(x, y, n)` of the catalog returned by `generateFeatures` has
`0 ≤ n < 10`, `0 ≤ x < w/4` and `0 ≤ y < h/4` (integer division). -/
theorem generateFeatures_mem_in_grid (w h k : Int) (hk : 0 < k) :
    ∃ fs, generateFeatures ⟨w, h⟩ k = Except.ok fs ∧
      ∀ p ∈ fs, (0 ≤ p.z ∧ p.z < 10) ∧ (0 ≤ p.x ∧ p.x < Int.tdiv w 4) ∧
        (0 ≤ p.y ∧ p.y < Int.tdiv h 4) := by
  refine ⟨_, generateFeatures_ok ⟨w, h⟩ k hk, ?_⟩
  intro p hp
  have hmem := (columnLoop_sublist (min k (Int.tdiv (wrapInt32 (w * h)) 16)) w h).subset hp
  rw [mem_canonical] at hmem
  exact ⟨hmem.2.2, hmem.1, hmem.2.1⟩

/-- Witness for C6 at the window `(8,8)` with count `3`. -/
theorem generateFeatures_mem_in_grid_witness :
    ∃ fs, generateFeatures ⟨8, 8⟩ 3 = Except.ok fs ∧
      ∀ p ∈ fs, (0 ≤ p.z ∧ p.z < 10) ∧ (0 ≤ p.x ∧ p.x < Int.tdiv 8 4) ∧
        (0 ≤ p.y ∧ p.y < Int.tdiv 8 4) :=
  generateFeatures_mem_in_grid 8 8 3 (by decide)

/-! ## Matrix access -/

theorem Mat.at_ok {α : Type} (m : Mat α) (r c : Nat) (hr : r < m.rows) (hc : c < m.cols) :
    m.at_ (r : Int) (c : Int) = Except.ok (m.data r c) := by
  unfold Mat.at_
  rw [if_pos ⟨by omega, by omega, by omega, by omega⟩]
  simp

theorem Mat.set_ok {α : Type} (m : Mat α) (r c : Nat) (v : α) (hr : r < m.rows)
    (hc : c < m.cols) :
    m.set (r : Int) (c : Int) v = Except.ok
      { rows := m.rows, cols := m.cols,
        data := fun i j => if i = r ∧ j = c then v else m.data i j } := by
  unfold Mat.set
  rw [if_pos ⟨by omega, by omega, by omega, by omega⟩]
  simp

/-! ## evaluate and evaluateAll -/

/-- C7: with 10 bound pooled channels, a feature index `i` below the catalog
size whose entry `(x, y, n)` lies inside pooled channel `n` evaluates to the
cell at row `y`, column `x` of pooled channel `n`. -/
theorem evaluate_returns_pooled_cell (self : ACFFeatureEvaluatorImpl) (i : Nat)
    (p : Point3i) (channel : Mat Int)
    (h10 : self.channels_.length = 10)
    (hp : self.features_[i]? = some p)
    (hn : 0 ≤ p.z) (hch : self.channels_[p.z.toNat]? = some channel)
    (hy : 0 ≤ p.y ∧ p.y < channel.rows) (hx : 0 ≤ p.x ∧ p.x < channel.cols) :
    evaluate self i = Except.ok (channel.data p.y.toNat p.x.toNat) := by
  have hi : i < self.features_.length := by
    rcases Nat.lt_or_ge i self.features_.length with h | h
    · exact h
    · rw [List.getElem?_eq_none h] at hp
      exact absurd hp (by simp)
  unfold evaluate
  simp only [h10, hi, not_true_eq_false, if_false, hp, not_lt.mpr hn, hch]
  unfold Mat.at_
  rw [if_pos ⟨hy.1, hy.2, hx.1, hx.2⟩]

/-- Witness for C7: entry `0` of the demo catalog is `(1, 0, 3)`, and
`evaluate(0)` is the cell at row `0`, column `1` of pooled channel `3`. -/
theorem evaluate_returns_pooled_cell_witness :
    evaluate demoEvaluator 0 = Except.ok 1 :=
  evaluate_returns_pooled_cell demoEvaluator 0 (Point3i.mk 1 0 3) demoPooled
    rfl rfl (by decide) rfl (by decide) (by decide)

/-- C8 (evaluation at a failing input): on the demo evaluator the loop of
`evaluateAll` fills the row `[1, 10]`, the values of `evaluate(0)` and
`evaluate(1)`, but `feature_values.setTo(feature_vals)` does not copy it: an
output array that was not allocated stays empty, and an output array
allocated as `1 × 2` is refused by the scalar check of `setTo`. -/
theorem evaluateAll_output_is_not_the_row :
    (∃ row, feature_vals demoEvaluator = Except.ok row ∧ row.rows = 1 ∧ row.cols = 2 ∧
      row.data 0 0 = 1 ∧ row.data 0 1 = 10 ∧
      evaluate demoEvaluator 0 = Except.ok 1 ∧ evaluate demoEvaluator 1 = Except.ok 10) ∧
    (∃ out, evaluateAll Mat.setTo demoEvaluator emptyOutput = Except.ok out ∧
      out.rows = 0 ∧ out.cols = 0) ∧
    evaluateAll Mat.setTo demoEvaluator allocatedOutput = Except.error Err.assertFailed :=
  ⟨⟨_, rfl, rfl, rfl, rfl, rfl, rfl, rfl⟩, ⟨_, rfl, rfl, rfl⟩, rfl⟩

/-! ## Pooling -/

theorem blockSum_cols (channel : Mat ℚ) (r : Nat) (hr : r < channel.rows) (cs : List Nat)
    (hcs : ∀ c ∈ cs, c < channel.cols) (sum : Int) (hsum : wrapInt32 sum = sum) :
    cs.foldlM (fun (sum : Int) (cell_col : Nat) => do
        let v ← channel.at_ (r : Int) (cell_col : Int)
        pure (wrapInt32 (sum + castToInt v))) sum
      = Except.ok (wrapInt32 (sum + (cs.map fun c => castToInt (channel.data r c)).sum)) := by
  induction cs generalizing sum with
  | nil => simp [pure, Except.pure, hsum]
  | cons c cs ih =>
    rw [List.foldlM_cons, Mat.at_ok channel r c hr (hcs c (List.mem_cons_self _ _))]
    show List.foldlM _ (wrapInt32 (sum + castToInt (channel.data r c))) cs = _
    rw [ih (fun c hc => hcs c (List.mem_cons_of_mem _ hc)) _
      (wrapInt32_of_fits _ (wrapInt32_fits _)), wrapInt32_add_left]
    simp [add_assoc]

theorem blockSum_rows (channel : Mat ℚ) (rs cs : List Nat)
    (hrs : ∀ r ∈ rs, r < channel.rows) (hcs : ∀ c ∈ cs, c < channel.cols) (sum : Int)
    (hsum : wrapInt32 sum = sum) :
    rs.foldlM (fun (sum : Int) (cell_row : Nat) =>
        cs.foldlM (fun (sum : Int) (cell_col : Nat) => do
          let v ← channel.at_ (cell_row : Int) (cell_col : Int)
          pure (wrapInt32 (sum + castToInt v))) sum) sum
      = Except.ok (wrapInt32 (sum +
          (rs.map fun r => (cs.map fun c => castToInt (channel.data r c)).sum).sum)) := by
  induction rs generalizing sum with
  | nil => simp [pure, Except.pure, hsum]
  | cons r rs ih =>
    rw [List.foldlM_cons,
      blockSum_cols channel r (hrs r (List.mem_cons_self _ _)) cs hcs sum hsum]
    show List.foldlM _ _ rs = _
    rw [ih (fun r hr => hrs r (List.mem_cons_of_mem _ hr)) _
      (wrapInt32_of_fits _ (wrapInt32_fits _)), wrapInt32_add_left]
    simp [add_assoc]

theorem blockSum_ok (channel : Mat ℚ) (r c : Nat) (hr : 4 * r + 4 ≤ channel.rows)
    (hc : 4 * c + 4 ≤ channel.cols) :
    blockSum channel (4 * r) (4 * c) = Except.ok (pooledValue channel r c) := by
  unfold blockSum
  rw [blockSum_rows channel _ _
    (fun i hi => by rw [List.mem_range'_1] at hi; omega)
    (fun j hj => by rw [List.mem_range'_1] at hj; omega) 0 (by decide)]
  simp only [pooledValue, castBlockSum, List.range', List.map_cons, List.map_nil,
    List.sum_cons, List.sum_nil, Finset.sum_range_succ, Finset.sum_range_zero, Nat.add_assoc,
    Nat.reduceAdd, Nat.add_zero]
  congr 2
  ring

theorem mem_stepIndices (bound : Nat) (fuel i m : Nat) (hfuel : bound ≤ i + fuel) :
    m ∈ stepIndices bound 4 fuel i ↔ i ≤ m ∧ m < bound ∧ (m - i) % 4 = 0 := by
  induction fuel generalizing i with
  | zero =>
    simp only [stepIndices, List.not_mem_nil, false_iff]
    omega
  | succ fuel ih =>
    unfold stepIndices
    by_cases hlt : i < bound
    · rw [if_pos hlt, List.mem_cons, ih (i + 4) (by omega)]
      omega
    · rw [if_neg hlt]
      simp only [List.not_mem_nil, false_iff]
      omega

theorem mem_blockStarts (bound m : Nat) :
    m ∈ blockStarts bound ↔ m < bound ∧ m % 4 = 0 := by
  unfold blockStarts
  rw [mem_stepIndices bound bound 0 m (by omega)]
  simp

/-- Invariant of the column loop of `poolChannel` on the block row starting
at `row`. -/
theorem poolChannel_cols (channel : Mat ℚ) (row : Nat) (hmod : row % 4 = 0)
    (hr : row + 4 ≤ channel.rows)
    (cs : List Nat) (acf : Mat Int) (hrow : row / 4 < acf.rows)
    (hcs : ∀ col ∈ cs, col % 4 = 0 ∧ col + 4 ≤ channel.cols ∧ col / 4 < acf.cols) :
    ∃ out, cs.foldlM (fun (acf_channel : Mat Int) (col : Nat) => do
        let sum ← blockSum channel row col
        acf_channel.set ((row / 4 : Nat) : Int) ((col / 4 : Nat) : Int) sum) acf = Except.ok out ∧
      out.rows = acf.rows ∧ out.cols = acf.cols ∧
      (∀ i j, acf.data i j = pooledValue channel i j →
        out.data i j = pooledValue channel i j) ∧
      (∀ col ∈ cs, out.data (row / 4) (col / 4) = pooledValue channel (row / 4) (col / 4)) := by
  induction cs generalizing acf with
  | nil => exact ⟨acf, by simp [pure, Except.pure], rfl, rfl, fun _ _ h => h, by simp⟩
  | cons col cs ih =>
    obtain ⟨hcmod, hcol, hlt⟩ := hcs col (List.mem_cons_self _ _)
    have hsum : blockSum channel row col
        = Except.ok (pooledValue channel (row / 4) (col / 4)) := by
      have := blockSum_ok channel (row / 4) (col / 4) (by omega) (by omega)
      rwa [show 4 * (row / 4) = row by omega, show 4 * (col / 4) = col by omega] at this
    have hset := Mat.set_ok acf (row / 4) (col / 4)
      (pooledValue channel (row / 4) (col / 4)) hrow hlt
    obtain ⟨out, hout, hrows, hcols, hkeep, hnew⟩ := ih
      { rows := acf.rows, cols := acf.cols,
        data := fun i j => if i = row / 4 ∧ j = col / 4
          then pooledValue channel (row / 4) (col / 4) else acf.data i j }
      hrow (fun c hc => hcs c (List.mem_cons_of_mem _ hc))
    have hstep : ∀ i j, acf.data i j = pooledValue channel i j →
        (if i = row / 4 ∧ j = col / 4 then pooledValue channel (row / 4) (col / 4)
          else acf.data i j) = pooledValue channel i j := by
      intro i j hij
      by_cases hc : i = row / 4 ∧ j = col / 4
      · rw [if_pos hc, hc.1, hc.2]
      · rw [if_neg hc, hij]
    refine ⟨out, ?_, hrows, hcols, fun i j hij => hkeep i j (hstep i j hij), ?_⟩
    · rw [List.foldlM_cons, hsum]
      show (acf.set ((row / 4 : Nat) : Int) ((col / 4 : Nat) : Int)
        (pooledValue channel (row / 4) (col / 4)) >>= fun v => List.foldlM _ v cs) = _
      rw [hset]
      exact hout
    · intro c hc
      rcases List.mem_cons.mp hc with rfl | hc
      · exact hkeep (row / 4) (c / 4) (by simp)
      · exact hnew c hc

/-- Invariant of the row loop of `poolChannel`. -/
theorem poolChannel_rows (channel : Mat ℚ) (cs : List Nat) (rs : List Nat) (acf : Mat Int)
    (hrs : ∀ row ∈ rs, row % 4 = 0 ∧ row + 4 ≤ channel.rows ∧ row / 4 < acf.rows)
    (hcs : ∀ col ∈ cs, col % 4 = 0 ∧ col + 4 ≤ channel.cols ∧ col / 4 < acf.cols) :
    ∃ out, rs.foldlM (fun acf_channel row =>
        cs.foldlM (fun acf_channel col => do
          let sum ← blockSum channel row col
          acf_channel.set ((row / 4 : Nat) : Int) ((col / 4 : Nat) : Int) sum) acf_channel) acf
        = Except.ok out ∧
      out.rows = acf.rows ∧ out.cols = acf.cols ∧
      (∀ i j, acf.data i j = pooledValue channel i j →
        out.data i j = pooledValue channel i j) ∧
      (∀ row ∈ rs, ∀ col ∈ cs,
        out.data (row / 4) (col / 4) = pooledValue channel (row / 4) (col / 4)) := by
  induction rs generalizing acf with
  | nil => exact ⟨acf, by simp [pure, Except.pure], rfl, rfl, fun _ _ h => h, by simp⟩
  | cons row rs ih =>
    obtain ⟨hmod, hrow, hlt⟩ := hrs row (List.mem_cons_self _ _)
    obtain ⟨mid, hmid, mrows, mcols, mkeep, mnew⟩ :=
      poolChannel_cols channel row hmod hrow cs acf hlt hcs
    obtain ⟨out, hout, hrows, hcols, hkeep, hnew⟩ := ih mid
      (fun r hr => by
        have := hrs r (List.mem_cons_of_mem _ hr)
        exact ⟨this.1, this.2.1, by rw [mrows]; exact this.2.2⟩)
      (fun c hc => by
        have := hcs c hc
        exact ⟨this.1, this.2.1, by rw [mcols]; exact this.2.2⟩)
    refine ⟨out, ?_, by rw [hrows, mrows], by rw [hcols, mcols],
      fun i j hij => hkeep i j (mkeep i j hij), ?_⟩
    · rw [List.foldlM_cons, hmid]
      exact hout
    · intro r hr c hc
      rcases List.mem_cons.mp hr with rfl | hr
      · exact hkeep _ _ (mnew c hc)
      · exact hnew r hr c hc

/-- A channel whose dimensions are multiples of 4 is pooled without leaving
its buffers; each pooled cell is the 32-bit sum of the casts of its block. -/
theorem poolChannel_ok (channel : Mat ℚ) (hrows : channel.rows % 4 = 0)
    (hcols : channel.cols % 4 = 0) :
    ∃ out, poolChannel channel = Except.ok out ∧
      out.rows = channel.rows / 4 ∧ out.cols = channel.cols / 4 ∧
      ∀ r c, r < out.rows → c < out.cols → out.data r c = pooledValue channel r c := by
  obtain ⟨out, hout, orows, ocols, _, hnew⟩ :=
    poolChannel_rows channel (blockStarts channel.cols) (blockStarts channel.rows)
      (Mat.create (channel.rows / 4) (channel.cols / 4))
      (fun row hrow => by
        rw [mem_blockStarts] at hrow
        simp only [Mat.create]
        omega)
      (fun col hcol => by
        rw [mem_blockStarts] at hcol
        simp only [Mat.create]
        omega)
  refine ⟨out, hout, orows, ocols, ?_⟩
  intro r c hr hc
  rw [orows] at hr
  rw [ocols] at hc
  simp only [Mat.create] at hr hc
  have h1 : 4 * r ∈ blockStarts channel.rows := by rw [mem_blockStarts]; omega
  have h2 : 4 * c ∈ blockStarts channel.cols := by rw [mem_blockStarts]; omega
  have := hnew (4 * r) h1 (4 * c) h2
  have e1 : 4 * r / 4 = r := by omega
  have e2 : 4 * c / 4 = c := by omega
  rwa [e1, e2] at this

/-! ## The cast to `int` -/

theorem tdiv_num_den_of_nonneg (v : ℚ) (hv : 0 ≤ v) : Int.tdiv v.num v.den = ⌊v⌋ := by
  rw [Rat.floor_def, Int.tdiv_eq_ediv (Rat.num_nonneg.mpr hv) (Int.ofNat_nonneg _)]

theorem tdiv_num_den_neg (v : ℚ) :
    Int.tdiv (-v).num (-v).den = -Int.tdiv v.num v.den := by
  rw [Rat.num_neg_eq_neg_num, Rat.den_neg_eq_den, Int.neg_tdiv]

/-- Integer division of numerator by denominator, rounding toward zero, is
truncation toward zero. -/
theorem tdiv_num_den_eq (v : ℚ) : Int.tdiv v.num v.den = truncTowardZero v := by
  unfold truncTowardZero
  split
  · next h => exact tdiv_num_den_of_nonneg v h
  · next h =>
    have hneg : 0 ≤ -v := by linarith
    have := tdiv_num_den_of_nonneg (-v) hneg
    rw [tdiv_num_den_neg, Int.floor_neg] at this
    omega

/-- The cast `(int)v` is truncation toward zero whenever the truncated value
is an `int`. -/
theorem castToInt_of_fits (v : ℚ) (h : fitsInt32 (truncTowardZero v)) :
    castToInt v = truncTowardZero v := by
  unfold castToInt
  simp only [tdiv_num_den_eq]
  exact if_pos h

theorem truncTowardZero_of_nonneg (v : ℚ) (hv : 0 ≤ v) : truncTowardZero v = ⌊v⌋ := by
  unfold truncTowardZero
  rw [if_pos hv]

theorem truncTowardZero_intCast (z : Int) : truncTowardZero (z : ℚ) = z := by
  unfold truncTowardZero
  split <;> simp

theorem truncTowardZero_half : truncTowardZero (1 / 2) = 0 := by
  rw [truncTowardZero_of_nonneg _ (by norm_num)]
  norm_num

theorem truncTowardZero_small (v : ℚ) (hlo : -1 < v) (hhi : v < 1) :
    truncTowardZero v = 0 := by
  unfold truncTowardZero
  split_ifs with h0
  · rw [Int.floor_eq_iff]
    constructor
    · simpa using h0
    · simpa using hhi
  · rw [Int.ceil_eq_iff]
    constructor
    · simpa using hlo
    · push_neg at h0
      simpa using h0.le

theorem castToInt_intCast (z : Int) (hz : fitsInt32 z) : castToInt (z : ℚ) = z := by
  rw [castToInt_of_fits _ (by rw [truncTowardZero_intCast]; exact hz), truncTowardZero_intCast]

theorem castToInt_half : castToInt (1 / 2) = 0 := by
  rw [castToInt_of_fits _ (by rw [truncTowardZero_half]; exact ⟨by decide, by decide⟩),
    truncTowardZero_half]

/-- On a block whose values all truncate to an `int`, the sum of the casts is
the sum of the truncated values. -/
theorem castBlockSum_eq_truncBlockSum (channel : Mat ℚ) (r c : Nat)
    (hr : 4 * r + 4 ≤ channel.rows) (hc : 4 * c + 4 ≤ channel.cols)
    (hfit : ∀ i j, i < channel.rows → j < channel.cols →
      fitsInt32 (truncTowardZero (channel.data i j))) :
    castBlockSum channel r c = truncBlockSum channel r c := by
  unfold castBlockSum truncBlockSum
  refine Finset.sum_congr rfl (fun i hi => Finset.sum_congr rfl (fun j hj => ?_))
  rw [Finset.mem_range] at hi hj
  exact castToInt_of_fits _ (hfit _ _ (by omega) (by omega))

theorem truncBlockSum_const (channel : Mat ℚ) (v : ℚ) (r c : Nat)
    (hv : ∀ i j, i < channel.rows → j < channel.cols → channel.data i j = v)
    (hr : 4 * r + 4 ≤ channel.rows) (hc : 4 * c + 4 ≤ channel.cols) :
    truncBlockSum channel r c = 16 * truncTowardZero v := by
  unfold truncBlockSum
  have : ∀ i ∈ Finset.range 4, ∀ j ∈ Finset.range 4,
      truncTowardZero (channel.data (4 * r + i) (4 * c + j)) = truncTowardZero v := by
    intro i hi j hj
    rw [Finset.mem_range] at hi hj
    rw [hv _ _ (by omega) (by omega)]
  rw [Finset.sum_congr rfl (fun i hi => Finset.sum_congr rfl (this i hi))]
  simp
  ring

/-- The stored pooled cell, for a block whose values all truncate to an
`int`: the sum of the truncated values, reduced to 32 bits. -/
theorem pooledValue_eq (channel : Mat ℚ) (r c : Nat)
    (hr : 4 * r + 4 ≤ channel.rows) (hc : 4 * c + 4 ≤ channel.cols)
    (hfit : ∀ i j, i < channel.rows → j < channel.cols →
      fitsInt32 (truncTowardZero (channel.data i j))) :
    pooledValue channel r c = wrapInt32 (truncBlockSum channel r c) := by
  unfold pooledValue
  rw [castBlockSum_eq_truncBlockSum channel r c hr hc hfit]

/-! ## setChannels -/

theorem channelsLoop_ok (self : ACFFeatureEvaluatorImpl) (channels : List (Mat ℚ))
    (hdim : ∀ ch ∈ channels, ch.rows % 4 = 0 ∧ ch.cols % 4 = 0) :
    ∃ pooled, channelsLoop self channels
        = (Except.ok (), { self with channels_ := self.channels_ ++ pooled }) ∧
      List.Forall₂ (fun ch p => poolChannel ch = Except.ok p) channels pooled := by
  induction channels generalizing self with
  | nil => exact ⟨[], by simp [channelsLoop], List.Forall₂.nil⟩
  | cons ch rest ih =>
    obtain ⟨hr, hc⟩ := hdim ch (List.mem_cons_self _ _)
    obtain ⟨p, hp, -⟩ := poolChannel_ok ch hr hc
    obtain ⟨ps, hps, hall⟩ := ih { self with channels_ := self.channels_ ++ [p] }
      (fun c hc => hdim c (List.mem_cons_of_mem _ hc))
    refine ⟨p :: ps, ?_, List.Forall₂.cons hp hall⟩
    unfold channelsLoop
    rw [hp]
    simp only [hps, List.append_assoc, List.singleton_append]

theorem setChannels_ok (self : ACFFeatureEvaluatorImpl) (channels : List (Mat ℚ))
    (h10 : channels.length = 10)
    (hdim : ∀ ch ∈ channels, ch.rows % 4 = 0 ∧ ch.cols % 4 = 0) :
    ∃ pooled, setChannels self channels
        = (Except.ok (), { self with channels_ := pooled }) ∧
      List.Forall₂ (fun ch p => poolChannel ch = Except.ok p) channels pooled := by
  obtain ⟨pooled, hp, hall⟩ := channelsLoop_ok { self with channels_ := [] } channels hdim
  refine ⟨pooled, ?_, hall⟩
  unfold setChannels
  simp only [h10, not_true_eq_false, if_false, hp, List.nil_append]

theorem forall₂_getElem? {α β : Type} {R : α → β → Prop} {l₁ : List α} {l₂ : List β}
    (h : List.Forall₂ R l₁ l₂) (i : Nat) (a : α) (b : β)
    (ha : l₁[i]? = some a) (hb : l₂[i]? = some b) : R a b := by
  induction h generalizing i with
  | nil => simp at ha
  | cons hab _ ih =>
    cases i with
    | zero =>
      simp only [List.getElem?_cons_zero, Option.some.injEq] at ha hb
      subst ha; subst hb; exact hab
    | succ i =>
      simp only [List.getElem?_cons_succ] at ha hb
      exact ih i ha hb

theorem halfChannel_fits :
    ∀ ch ∈ List.replicate 10 halfChannel, ∀ i j, i < ch.rows → j < ch.cols →
      fitsInt32 (truncTowardZero (ch.data i j)) := by
  intro ch hch i j _ _
  rw [List.eq_of_mem_replicate hch]
  show fitsInt32 (truncTowardZero (1 / 2))
  rw [truncTowardZero_half]
  exact ⟨by decide, by decide⟩

theorem halfChannel_dims :
    ∀ ch ∈ List.replicate 10 halfChannel, ch.rows % 4 = 0 ∧ ch.cols % 4 = 0 := by
  intro ch hch
  rw [List.eq_of_mem_replicate hch]
  exact ⟨rfl, rfl⟩

/-- C9 (as the code has it): for a stack of 10 channels whose rows and cols
are multiples of 4 and whose values each truncate to an `int`, `setChannels`
succeeds and stores 10 pooled channels; the pooled channel of each input
channel has dimensions `(rows/4, cols/4)`, its cell `(r, c)` is the sum over
the 16 source values of rows `4r..4r+3`, cols `4c..4c+3`, each value truncated
toward zero before it is added, that sum reduced to a 32-bit `int` (the sum
itself whenever it is an `int`); for a channel filled with a constant `v` every
pooled cell is `16 * trunc(v)` reduced in the same way. -/
theorem setChannels_pooled_cells (self : ACFFeatureEvaluatorImpl) (channels : List (Mat ℚ))
    (h10 : channels.length = 10)
    (hdim : ∀ ch ∈ channels, ch.rows % 4 = 0 ∧ ch.cols % 4 = 0)
    (hfit : ∀ ch ∈ channels, ∀ i j, i < ch.rows → j < ch.cols →
      fitsInt32 (truncTowardZero (ch.data i j))) :
    (setChannels self channels).1 = Except.ok () ∧
    (setChannels self channels).2.channels_.length = 10 ∧
    ∀ (i : Nat) (channel : Mat ℚ) (pooled : Mat Int),
      channels[i]? = some channel →
      (setChannels self channels).2.channels_[i]? = some pooled →
        pooled.rows = channel.rows / 4 ∧ pooled.cols = channel.cols / 4 ∧
        (∀ r c, r < pooled.rows → c < pooled.cols →
          pooled.data r c = wrapInt32 (truncBlockSum channel r c) ∧
          (fitsInt32 (truncBlockSum channel r c) →
            pooled.data r c = truncBlockSum channel r c)) ∧
        (∀ v : ℚ, (∀ i j, i < channel.rows → j < channel.cols → channel.data i j = v) →
          ∀ r c, r < pooled.rows → c < pooled.cols →
            pooled.data r c = wrapInt32 (16 * truncTowardZero v) ∧
            (fitsInt32 (16 * truncTowardZero v) →
              pooled.data r c = 16 * truncTowardZero v)) := by
  obtain ⟨ps, hps, hall⟩ := setChannels_ok self channels h10 hdim
  rw [hps]
  refine ⟨rfl, by simpa [h10] using hall.length_eq.symm, ?_⟩
  intro i channel pooled hch hpo
  change ps[i]? = some pooled at hpo
  have hch' := List.getElem?_mem hch
  obtain ⟨hr, hc⟩ := hdim channel hch'
  obtain ⟨out, hout, orows, ocols, ocells⟩ := poolChannel_ok channel hr hc
  have hpool : poolChannel channel = Except.ok pooled :=
    forall₂_getElem? hall i channel pooled hch hpo
  rw [hout] at hpool
  cases hpool
  have hcell : ∀ r c, r < pooled.rows → c < pooled.cols →
      pooled.data r c = wrapInt32 (truncBlockSum channel r c) := by
    intro r c hr' hc'
    rw [ocells r c hr' hc']
    exact pooledValue_eq channel r c (by omega) (by omega) (hfit channel hch')
  refine ⟨orows, ocols, ?_, ?_⟩
  · intro r c hr' hc'
    refine ⟨hcell r c hr' hc', fun hf => ?_⟩
    rw [hcell r c hr' hc', wrapInt32_of_fits _ hf]
  · intro v hv r c hr' hc'
    have hconst := truncBlockSum_const channel v r c hv (by omega) (by omega)
    refine ⟨by rw [hcell r c hr' hc', hconst], fun hf => ?_⟩
    rw [hcell r c hr' hc', hconst, wrapInt32_of_fits _ hf]

/-- Witness for C9 (as the code has it) on ten `4 × 4` channels filled with `1/2`. -/
theorem setChannels_pooled_cells_witness :
    (setChannels freshEvaluator (List.replicate 10 halfChannel)).1 = Except.ok () ∧
    (setChannels freshEvaluator (List.replicate 10 halfChannel)).2.channels_.length = 10 ∧
    ∀ (i : Nat) (channel : Mat ℚ) (pooled : Mat Int),
      (List.replicate 10 halfChannel)[i]? = some channel →
      (setChannels freshEvaluator (List.replicate 10 halfChannel)).2.channels_[i]? = some pooled →
        pooled.rows = channel.rows / 4 ∧ pooled.cols = channel.cols / 4 ∧
        (∀ r c, r < pooled.rows → c < pooled.cols →
          pooled.data r c = wrapInt32 (truncBlockSum channel r c) ∧
          (fitsInt32 (truncBlockSum channel r c) →
            pooled.data r c = truncBlockSum channel r c)) ∧
        (∀ v : ℚ, (∀ i j, i < channel.rows → j < channel.cols → channel.data i j = v) →
          ∀ r c, r < pooled.rows → c < pooled.cols →
            pooled.data r c = wrapInt32 (16 * truncTowardZero v) ∧
            (fitsInt32 (16 * truncTowardZero v) →
              pooled.data r c = 16 * truncTowardZero v)) :=
  setChannels_pooled_cells freshEvaluator (List.replicate 10 halfChannel) (by decide)
    halfChannel_dims halfChannel_fits

/-- C9 (counterexample): on ten `4 × 4` channels filled with `1/2`, the stored
pooled cell `(0, 0)` of the first channel is `0`, whereas the sum of the 16
source values truncated to an integer is `8`. -/
theorem setChannels_half_not_sumThenTruncate :
    ∃ pooled, (setChannels freshEvaluator (List.replicate 10 halfChannel)).2.channels_[0]?
        = some pooled ∧
      pooled.rows = 1 ∧ pooled.cols = 1 ∧
      pooled.data 0 0 = 0 ∧ sumThenTruncate halfChannel 0 0 = 8 ∧
      pooled.data 0 0 ≠ sumThenTruncate halfChannel 0 0 := by
  obtain ⟨ps, hps, hall⟩ := setChannels_ok freshEvaluator (List.replicate 10 halfChannel)
    (by decide) halfChannel_dims
  obtain ⟨out, hout, orows, ocols, ocells⟩ := poolChannel_ok halfChannel rfl rfl
  have hlen : ps.length = 10 := by simpa using hall.length_eq.symm
  obtain ⟨p, hp⟩ : ∃ p, ps[0]? = some p := by
    cases ps with
    | nil => simp at hlen
    | cons p _ => exact ⟨p, by simp⟩
  have hpool : poolChannel halfChannel = Except.ok p :=
    forall₂_getElem? hall 0 halfChannel p (by simp) hp
  rw [hout] at hpool
  cases hpool
  have hcell : out.data 0 0 = 0 := by
    rw [ocells 0 0 (by rw [orows]; decide) (by rw [ocols]; decide),
      pooledValue_eq halfChannel 0 0 (by decide) (by decide)
        (halfChannel_fits halfChannel (by simp)),
      truncBlockSum_const halfChannel (1 / 2) 0 0 (fun _ _ _ _ => rfl) (by decide) (by decide),
      truncTowardZero_half]
    decide
  have hspec : sumThenTruncate halfChannel 0 0 = 8 := by
    have : (∑ i in Finset.range 4, ∑ j in Finset.range 4,
        halfChannel.data (4 * 0 + i) (4 * 0 + j)) = ((8 : Int) : ℚ) := by
      simp [halfChannel]
      norm_num
    unfold sumThenTruncate
    rw [this, truncTowardZero_intCast]
  refine ⟨out, by rw [hps]; exact hp, orows, ocols, hcell, hspec, ?_⟩
  rw [hcell, hspec]
  decide

/-! ## Partial blocks -/

/-- A loop whose steps can only stop with `outOfBounds` can only stop with
`outOfBounds`. -/
theorem foldlM_error_only {α β : Type} (f : β → α → Except Err β)
    (hf : ∀ acc a e, f acc a = Except.error e → e = Err.outOfBounds)
    (l : List α) (acc : β) (e : Err) (h : l.foldlM f acc = Except.error e) :
    e = Err.outOfBounds := by
  induction l generalizing acc with
  | nil => simp [pure, Except.pure] at h
  | cons a l ih =>
    rw [List.foldlM_cons] at h
    cases hfa : f acc a with
    | error e' =>
      rw [hfa] at h
      have : e' = e := by simpa [bind, Except.bind] using h
      exact this ▸ hf acc a e' hfa
    | ok b =>
      rw [hfa] at h
      exact ih b h

/-- A loop that reaches a step which always stops with `outOfBounds`, and
whose other steps can only stop with `outOfBounds`, stops with `outOfBounds`. -/
theorem foldlM_error_of_mem {α β : Type} (f : β → α → Except Err β)
    (hf : ∀ acc a e, f acc a = Except.error e → e = Err.outOfBounds)
    (x : α) (hx : ∀ acc, f acc x = Except.error Err.outOfBounds)
    (l : List α) (hmem : x ∈ l) (acc : β) :
    l.foldlM f acc = Except.error Err.outOfBounds := by
  induction l generalizing acc with
  | nil => simp at hmem
  | cons a l ih =>
    rw [List.foldlM_cons]
    cases hfa : f acc a with
    | error e' =>
      rw [hf acc a e' hfa]
      rfl
    | ok b =>
      rcases List.mem_cons.mp hmem with rfl | hl
      · rw [hx acc] at hfa
        cases hfa
      · exact ih hl b

theorem Mat.at_error_only {α : Type} (m : Mat α) (r c : Int) (e : Err)
    (h : m.at_ r c = Except.error e) : e = Err.outOfBounds := by
  unfold Mat.at_ at h
  split at h
  · cases h
  · cases h; rfl

theorem Mat.set_error_only {α : Type} (m : Mat α) (r c : Int) (v : α) (e : Err)
    (h : m.set r c v = Except.error e) : e = Err.outOfBounds := by
  unfold Mat.set at h
  split at h
  · cases h
  · cases h; rfl

theorem Mat.at_outside {α : Type} (m : Mat α) (r c : Nat) (h : m.rows ≤ r ∨ m.cols ≤ c) :
    m.at_ (r : Int) (c : Int) = Except.error Err.outOfBounds := by
  unfold Mat.at_
  rw [if_neg (by omega)]

theorem cellStep_error_only (channel : Mat ℚ) (r : Nat) (sum : Int) (c : Nat) (e : Err)
    (h : (do let v ← channel.at_ (r : Int) (c : Int)
             pure (wrapInt32 (sum + castToInt v)) : Except Err Int) = Except.error e) :
    e = Err.outOfBounds := by
  cases hat : channel.at_ (r : Int) (c : Int) with
  | error e' =>
    rw [hat] at h
    have : e' = e := by simpa [bind, Except.bind] using h
    exact this ▸ Mat.at_error_only channel _ _ e' hat
  | ok v =>
    rw [hat] at h
    simp [bind, Except.bind, pure, Except.pure] at h

theorem blockSum_error_only (channel : Mat ℚ) (row col : Nat) (e : Err)
    (h : blockSum channel row col = Except.error e) : e = Err.outOfBounds := by
  unfold blockSum at h
  refine foldlM_error_only _ ?_ _ _ e h
  intro sum r e' h'
  exact foldlM_error_only _ (fun s c e'' => cellStep_error_only channel r s c e'') _ _ e' h'

/-- A block that does not lie inside the channel is not summed: the read
leaves the channel. -/
theorem blockSum_outside (channel : Mat ℚ) (row col : Nat)
    (h : channel.rows < row + 4 ∨ channel.cols < col + 4) :
    blockSum channel row col = Except.error Err.outOfBounds := by
  unfold blockSum
  rcases h with h | h
  · refine foldlM_error_of_mem _ ?_ (row + 3) ?_ _ (by simp [List.mem_range'_1]) 0
    · intro sum r e' h'
      exact foldlM_error_only _ (fun s c e'' => cellStep_error_only channel r s c e'') _ _ e' h'
    · intro sum
      refine foldlM_error_of_mem _ (fun s c e'' => cellStep_error_only channel (row + 3) s c e'')
        col ?_ _ (by simp [List.mem_range'_1]) sum
      intro s
      rw [Mat.at_outside channel (row + 3) col (Or.inl (by omega))]
      rfl
  · refine foldlM_error_of_mem _ ?_ row ?_ _ (by simp [List.mem_range'_1]) 0
    · intro sum r e' h'
      exact foldlM_error_only _ (fun s c e'' => cellStep_error_only channel r s c e'') _ _ e' h'
    · intro sum
      refine foldlM_error_of_mem _ (fun s c e'' => cellStep_error_only channel row s c e'')
        (col + 3) ?_ _ (by simp [List.mem_range'_1]) sum
      intro s
      rw [Mat.at_outside channel row (col + 3) (Or.inr (by omega))]
      rfl

theorem poolStep_error_only (channel : Mat ℚ) (row col : Nat) (acf : Mat Int) (e : Err)
    (h : (do let sum ← blockSum channel row col
             acf.set ((row / 4 : Nat) : Int) ((col / 4 : Nat) : Int) sum : Except Err (Mat Int))
        = Except.error e) :
    e = Err.outOfBounds := by
  cases hs : blockSum channel row col with
  | error e' =>
    rw [hs] at h
    have : e' = e := by simpa [bind, Except.bind] using h
    exact this ▸ blockSum_error_only channel row col e' hs
  | ok v =>
    rw [hs] at h
    exact Mat.set_error_only acf _ _ v e h

/-- When a channel has a trailing partial block (rows not a multiple of 4 with
at least one column, or cols not a multiple of 4 with at least one row), the
block loops of `setChannels` still visit it and leave the buffers. -/
theorem poolChannel_partial_block (channel : Mat ℚ)
    (h : (channel.rows % 4 ≠ 0 ∧ 0 < channel.cols) ∨
      (channel.cols % 4 ≠ 0 ∧ 0 < channel.rows)) :
    poolChannel channel = Except.error Err.outOfBounds := by
  have hcolLoop : ∀ (row : Nat) (acf : Mat Int) (e : Err),
      (blockStarts channel.cols).foldlM (fun (acf_channel : Mat Int) (col : Nat) => do
        let sum ← blockSum channel row col
        acf_channel.set ((row / 4 : Nat) : Int) ((col / 4 : Nat) : Int) sum) acf
        = Except.error e → e = Err.outOfBounds := fun row acf e he =>
    foldlM_error_only _ (fun a c e' => poolStep_error_only channel row c a e') _ acf e he
  unfold poolChannel
  rcases h with ⟨hr, hc⟩ | ⟨hc, hr⟩
  · refine foldlM_error_of_mem _ (fun acf row e => hcolLoop row acf e)
      (4 * (channel.rows / 4)) ?_ _ (by rw [mem_blockStarts]; omega) _
    intro acf
    refine foldlM_error_of_mem _
      (fun a c e' => poolStep_error_only channel _ c a e') 0 ?_ _
      (by rw [mem_blockStarts]; omega) acf
    intro a
    rw [blockSum_outside channel _ 0 (Or.inl (by omega))]
    rfl
  · refine foldlM_error_of_mem _ (fun acf row e => hcolLoop row acf e)
      0 ?_ _ (by rw [mem_blockStarts]; omega) _
    intro acf
    refine foldlM_error_of_mem _
      (fun a c e' => poolStep_error_only channel _ c a e') (4 * (channel.cols / 4)) ?_ _
      (by rw [mem_blockStarts]; omega) acf
    intro a
    rw [blockSum_outside channel 0 _ (Or.inr (by omega))]
    rfl

theorem poolChannel_error_only (channel : Mat ℚ) (e : Err)
    (h : poolChannel channel = Except.error e) : e = Err.outOfBounds := by
  unfold poolChannel at h
  refine foldlM_error_only _ ?_ _ _ e h
  intro acf row e' h'
  exact foldlM_error_only _ (fun a c e'' => poolStep_error_only channel row c a e'') _ acf e' h'

theorem channelsLoop_partial_block (self : ACFFeatureEvaluatorImpl) (channels : List (Mat ℚ))
    (h : ∃ ch ∈ channels, (ch.rows % 4 ≠ 0 ∧ 0 < ch.cols) ∨ (ch.cols % 4 ≠ 0 ∧ 0 < ch.rows)) :
    (channelsLoop self channels).1 = Except.error Err.outOfBounds := by
  induction channels generalizing self with
  | nil => simp at h
  | cons ch rest ih =>
    unfold channelsLoop
    cases hp : poolChannel ch with
    | error e =>
      rw [poolChannel_error_only ch e hp]
    | ok acf =>
      obtain ⟨c, hc, hpart⟩ := h
      rcases List.mem_cons.mp hc with rfl | hrest
      · rw [poolChannel_partial_block c hpart] at hp
        cases hp
      · exact ih _ ⟨c, hrest, hpart⟩

/-- Whenever one of the 10 channels has a trailing partial block, `setChannels`
leaves the buffers. -/
theorem setChannels_partial_block (self : ACFFeatureEvaluatorImpl) (channels : List (Mat ℚ))
    (h10 : channels.length = 10)
    (h : ∃ ch ∈ channels, (ch.rows % 4 ≠ 0 ∧ 0 < ch.cols) ∨ (ch.cols % 4 ≠ 0 ∧ 0 < ch.rows)) :
    (setChannels self channels).1 = Except.error Err.outOfBounds := by
  unfold setChannels
  simp only [h10, not_true_eq_false, if_false]
  exact channelsLoop_partial_block _ channels h

/-- C10 (evaluation at a failing input): on ten `6 × 6` channels `setChannels`
leaves the buffers: the block loop also runs for `row = 4`, reads source rows
`6` and `7` and addresses pooled row `1` of a one-row pooled grid. -/
theorem setChannels_6x6_outOfBounds :
    (setChannels freshEvaluator (List.replicate 10 zeroChannel6)).1
        = Except.error Err.outOfBounds ∧
      blockStarts zeroChannel6.rows = [0, 4] ∧
      zeroChannel6.at_ 6 0 = Except.error Err.outOfBounds ∧
      (Mat.create (6 / 4) (6 / 4)).rows = 1 :=
  ⟨rfl, rfl, rfl, rfl⟩

/-! ## The size of the catalog -/

theorem channelLoop_count (count x y : Int) (ns : List Int) (fs : List Point3i) (cur : Int)
    (h0 : 0 ≤ cur) (hb : cur + ns.length < 2147483648) :
    (channelLoop count x y ns (fs, cur)).2
        = (if cur < count ∧ count ≤ cur + ns.length then count else cur + ns.length) ∧
      ((channelLoop count x y ns (fs, cur)).1.length : Int)
          - (channelLoop count x y ns (fs, cur)).2 = fs.length - cur := by
  induction ns generalizing fs cur with
  | nil =>
    simp only [channelLoop, List.length_nil, Nat.cast_zero, add_zero, and_true]
    split_ifs <;> omega
  | cons n ns ih =>
    simp only [List.length_cons, Nat.cast_add, Nat.cast_one] at hb
    have hw : wrapInt32 (cur + 1) = cur + 1 :=
      wrapInt32_of_fits _ ⟨by omega, by omega⟩
    by_cases hc : cur + 1 = count
    · subst hc
      simp only [channelLoop, hw, if_true, List.length_append, List.length_cons,
        List.length_nil, Nat.cast_add, Nat.cast_one, Nat.cast_zero, zero_add]
      constructor
      · split_ifs <;> omega
      · omega
    · obtain ⟨h1, h2⟩ := ih (fs ++ [Point3i.mk x y n]) (cur + 1) (by omega) (by omega)
      simp only [channelLoop, hw, hc, if_false]
      rw [h2, h1]
      simp only [List.length_append, List.length_cons, List.length_nil, Nat.cast_add,
        Nat.cast_one, Nat.cast_zero, zero_add]
      constructor
      · split_ifs <;> omega
      · omega

theorem channelLoop_cell (count x y : Int) (st : List Point3i × Int)
    (h0 : 0 ≤ st.2) (hb : st.2 + 10 < 2147483648) :
    (channelLoop count x y (upTo 10) st).2 = countAfterCell count st.2 ∧
      ((channelLoop count x y (upTo 10) st).1.length : Int)
          - (channelLoop count x y (upTo 10) st).2 = st.1.length - st.2 := by
  obtain ⟨fs, cur⟩ := st
  have hlen : ((upTo 10).length : Int) = 10 := by rw [length_upTo]; rfl
  have h := channelLoop_count count x y (upTo 10) fs cur h0 (by rw [hlen]; exact hb)
  rw [hlen] at h
  exact h

theorem countAfterCell_bounds (count cur : Int) :
    cur < countAfterCell count cur ∧ countAfterCell count cur ≤ cur + 10 := by
  unfold countAfterCell
  split_ifs <;> omega

theorem iterate_countAfterCell_bounds (count cur : Int) (t : Nat) :
    cur ≤ (countAfterCell count)^[t] cur ∧
      (countAfterCell count)^[t] cur ≤ cur + 10 * (t : Int) := by
  induction t with
  | zero => simp
  | succ t ih =>
    rw [Function.iterate_succ_apply']
    have := countAfterCell_bounds count ((countAfterCell count)^[t] cur)
    push_cast
    omega

theorem rowLoop_count_aux (count x : Int) (ys : List Int) (st : List Point3i × Int)
    (h0 : 0 ≤ st.2) (hb : st.2 + 10 * (ys.length : Int) < 2147483648) :
    (ys.foldl (fun st y => channelLoop count x y (upTo 10) st) st).2
        = (countAfterCell count)^[ys.length] st.2 ∧
      ((ys.foldl (fun st y => channelLoop count x y (upTo 10) st) st).1.length : Int)
          - (ys.foldl (fun st y => channelLoop count x y (upTo 10) st) st).2
        = st.1.length - st.2 := by
  induction ys generalizing st with
  | nil => simp
  | cons y ys ih =>
    simp only [List.length_cons, Nat.cast_add, Nat.cast_one] at hb
    obtain ⟨h1, h2⟩ := channelLoop_cell count x y st h0 (by omega)
    have hbd := countAfterCell_bounds count st.2
    obtain ⟨i1, i2⟩ := ih (channelLoop count x y (upTo 10) st)
      (by rw [h1]; omega) (by rw [h1]; omega)
    simp only [List.foldl_cons, List.length_cons, Function.iterate_succ_apply]
    rw [i2, h2, i1, h1]
    exact ⟨rfl, rfl⟩

theorem rowLoop_count (count height x : Int) (st : List Point3i × Int)
    (h0 : 0 ≤ st.2)
    (hb : st.2 + 10 * ((Int.tdiv height 4).toNat : Int) < 2147483648) :
    (rowLoop count height x st).2
        = (countAfterCell count)^[(Int.tdiv height 4).toNat] st.2 ∧
      ((rowLoop count height x st).1.length : Int) - (rowLoop count height x st).2
        = st.1.length - st.2 := by
  have h := rowLoop_count_aux count x (upTo (Int.tdiv height 4)) st h0
    (by rw [length_upTo]; exact hb)
  rw [length_upTo] at h
  exact h

theorem columnLoop_count_aux (count height : Int) (xs : List Int) (st : List Point3i × Int)
    (h0 : 0 ≤ st.2)
    (hb : st.2 + 10 * (((Int.tdiv height 4).toNat * xs.length : Nat) : Int) < 2147483648) :
    (xs.foldl (fun st x => rowLoop count height x st) st).2
        = ((countAfterCell count)^[(Int.tdiv height 4).toNat])^[xs.length] st.2 ∧
      ((xs.foldl (fun st x => rowLoop count height x st) st).1.length : Int)
          - (xs.foldl (fun st x => rowLoop count height x st) st).2
        = st.1.length - st.2 := by
  induction xs generalizing st with
  | nil => simp
  | cons x xs ih =>
    simp only [List.length_cons, Nat.mul_succ, Nat.cast_add] at hb
    obtain ⟨h1, h2⟩ := rowLoop_count count height x st h0 (by omega)
    have hbd := iterate_countAfterCell_bounds count st.2 (Int.tdiv height 4).toNat
    obtain ⟨i1, i2⟩ := ih (rowLoop count height x st)
      (by rw [h1]; omega) (by rw [h1]; omega)
    simp only [List.foldl_cons, List.length_cons, Function.iterate_succ_apply]
    rw [i2, h2, i1, h1]
    exact ⟨rfl, rfl⟩

/-- As long as `cur_count` stays an `int`, the catalog has as many entries as
the final value of `cur_count`, which is `countAfterCell` iterated once per
grid cell. -/
theorem columnLoop_length (count width height : Int)
    (hb : 10 * ((Int.tdiv width 4).toNat * (Int.tdiv height 4).toNat) < 2147483648) :
    ((columnLoop count width height ([], 0)).1.length : Int)
      = (countAfterCell count)^[(Int.tdiv width 4).toNat * (Int.tdiv height 4).toNat] 0 := by
  have h := columnLoop_count_aux count height (upTo (Int.tdiv width 4)) ([], 0)
    (le_refl 0) (by
      rw [length_upTo, Nat.mul_comm]
      have : ((10 * ((Int.tdiv width 4).toNat * (Int.tdiv height 4).toNat) : Nat) : Int)
          < 2147483648 := by exact_mod_cast hb
      push_cast at this ⊢
      omega)
  rw [length_upTo] at h
  obtain ⟨h1, h2⟩ := h
  unfold columnLoop
  rw [Nat.mul_comm, Function.iterate_mul, ← h1]
  simp only [List.length_nil, Nat.cast_zero, sub_self] at h2
  omega

/-- The value of `cur_count` after `t` cells, for a target `c ≥ 1`: ten per
cell, less the channels skipped in the cell where the target is met. -/
theorem iterate_countAfterCell (c : Int) (hc : 1 ≤ c) (t : Nat) :
    (countAfterCell c)^[t] 0
      = if 10 * (t : Int) < c then 10 * (t : Int) else 10 * (t : Int) - (10 - c % 10) % 10 := by
  induction t with
  | zero =>
    simp only [Function.iterate_zero, id_eq, Nat.cast_zero, mul_zero]
    split_ifs <;> omega
  | succ t ih =>
    rw [Function.iterate_succ_apply', ih]
    unfold countAfterCell
    push_cast
    split_ifs <;> omega

/-- A target `c ≤ 0` is never met: `cur_count` is ten per cell. -/
theorem iterate_countAfterCell_of_nonpos (c : Int) (hc : c ≤ 0) (t : Nat) :
    (countAfterCell c)^[t] 0 = 10 * (t : Int) := by
  induction t with
  | zero => simp
  | succ t ih =>
    rw [Function.iterate_succ_apply', ih]
    unfold countAfterCell
    push_cast
    split_ifs <;> omega

theorem tdiv_four_nonpos (w : Int) (hw : w < 4) : Int.tdiv w 4 ≤ 0 := by
  rcases Int.lt_or_le w 0 with hneg | hpos
  · have h1 : Int.tdiv w 4 = -Int.tdiv (-w) 4 := by rw [Int.neg_tdiv, neg_neg]
    have h2 : 0 ≤ Int.tdiv (-w) 4 := Int.tdiv_nonneg (by omega) (by decide)
    omega
  · rw [Int.tdiv_eq_ediv hpos (by decide)]
    omega

/-- C18 (as the code has it): for `k > 0` the catalog has, when `w ≥ 4`,
`h ≥ 4` and the product `w*h` is an `int` (at most `2^31 - 1`), with
`cells = (w/4)*(h/4)` and `c = min(k, (w*h)/16)`, exactly `10*cells` entries
if `c` is a multiple of 10 and `10*cells - (10 - c mod 10)` entries otherwise,
so at least `10*cells - 9` entries whatever `k` is; and it is empty when
`w < 4` or `h < 4`. -/
theorem generateFeatures_exact_length (w h k : Int) (hk : 0 < k) :
    ∃ fs, generateFeatures ⟨w, h⟩ k = Except.ok fs ∧
      (4 ≤ w → 4 ≤ h → w * h ≤ 2147483647 →
        (fs.length : Int)
            = (if min k (Int.tdiv (w * h) 16) % 10 = 0 then 10 * (Int.tdiv w 4 * Int.tdiv h 4)
               else 10 * (Int.tdiv w 4 * Int.tdiv h 4)
                 - (10 - min k (Int.tdiv (w * h) 16) % 10)) ∧
          10 * (Int.tdiv w 4 * Int.tdiv h 4) - 9 ≤ (fs.length : Int)) ∧
      (w < 4 ∨ h < 4 → fs = []) := by
  refine ⟨_, generateFeatures_ok ⟨w, h⟩ k hk, ?_, ?_⟩
  · intro hw hh hfit
    have hw4 : Int.tdiv w 4 = w / 4 := Int.tdiv_eq_ediv (by omega) (by decide)
    have hh4 : Int.tdiv h 4 = h / 4 := Int.tdiv_eq_ediv (by omega) (by decide)
    have hp0 : 0 ≤ w * h := by positivity
    have hwrap : wrapInt32 (w * h) = w * h := wrapInt32_of_fits _ ⟨by omega, hfit⟩
    have hp16 : Int.tdiv (w * h) 16 = w * h / 16 := Int.tdiv_eq_ediv hp0 (by decide)
    have ha : 1 ≤ w / 4 := by omega
    have hb : 1 ≤ h / 4 := by omega
    have hwa : w ≤ 4 * (w / 4) + 3 := by omega
    have hhb : h ≤ 4 * (h / 4) + 3 := by omega
    have hwa' : 4 * (w / 4) ≤ w := by omega
    have hhb' : 4 * (h / 4) ≤ h := by omega
    have hN1 : 1 ≤ w / 4 * (h / 4) := by nlinarith
    have hplo : 16 ≤ w * h := by nlinarith
    have hphi : w * h ≤ 49 * (w / 4 * (h / 4)) := by nlinarith
    have hN16 : 16 * (w / 4 * (h / 4)) ≤ w * h := by nlinarith
    have hcast : (((Int.tdiv w 4).toNat * (Int.tdiv h 4).toNat : Nat) : Int)
        = w / 4 * (h / 4) := by
      rw [hw4, hh4]
      push_cast
      rw [Int.toNat_of_nonneg (by omega), Int.toNat_of_nonneg (by omega)]
    have hsmall : 10 * ((Int.tdiv w 4).toNat * (Int.tdiv h 4).toNat) < 2147483648 := by
      have : ((10 * ((Int.tdiv w 4).toNat * (Int.tdiv h 4).toNat) : Nat) : Int)
          < 2147483648 := by
        push_cast at hcast ⊢
        rw [hcast]
        omega
      exact_mod_cast this
    have hc1 : 1 ≤ min k (Int.tdiv (w * h) 16) := by
      rw [hp16]
      omega
    show ((columnLoop (min k (Int.tdiv (wrapInt32 (w * h)) 16)) w h ([], 0)).1.length : Int)
        = _ ∧ _ ≤ ((columnLoop (min k (Int.tdiv (wrapInt32 (w * h)) 16)) w h
          ([], 0)).1.length : Int)
    rw [hwrap, columnLoop_length _ _ _ hsmall, iterate_countAfterCell _ hc1, hcast, hp16,
      hw4, hh4]
    generalize w / 4 * (h / 4) = N at *
    generalize w * h = p at *
    constructor
    · split_ifs <;> omega
    · split_ifs <;> omega
  · intro hsmall
    have hsub := columnLoop_sublist (min k (Int.tdiv (wrapInt32 (w * h)) 16)) w h
    have hlen := hsub.length_le
    rw [length_canonical] at hlen
    have hzero : (Int.tdiv w 4).toNat * (Int.tdiv h 4).toNat = 0 := by
      rcases hsmall with hw | hh
      · have := tdiv_four_nonpos w hw
        rw [Int.toNat_of_nonpos this, Nat.zero_mul]
      · have := tdiv_four_nonpos h hh
        rw [Int.toNat_of_nonpos this, Nat.mul_zero]
    rw [hzero] at hlen
    have hnil : (columnLoop (min k (Int.tdiv (wrapInt32 (w * h)) 16)) w h ([], 0)).1 = [] :=
      List.length_eq_zero.mp (by omega)
    exact hnil

/-- Witness for C18: a `32 × 32` window gives 634 entries for `k = 1000` and
631 entries for `k = 1`. -/
theorem generateFeatures_exact_length_witness :
    (∃ fs, generateFeatures ⟨32, 32⟩ 1000 = Except.ok fs ∧ (fs.length : Int) = 634) ∧
    (∃ fs, generateFeatures ⟨32, 32⟩ 1 = Except.ok fs ∧ (fs.length : Int) = 631) := by
  obtain ⟨fs, hfs, hlen, -⟩ := generateFeatures_exact_length 32 32 1000 (by decide)
  obtain ⟨gs, hgs, hlen', -⟩ := generateFeatures_exact_length 32 32 1 (by decide)
  refine ⟨⟨fs, hfs, ?_⟩, ⟨gs, hgs, ?_⟩⟩
  · have := (hlen (by decide) (by decide) (by decide)).1
    rw [this]
    decide
  · have := (hlen' (by decide) (by decide) (by decide)).1
    rw [this]
    decide

/-- C18 (counterexample): for the window `(46341, 46341)` and `k = 1` the
`int` product `width * height` leaves the 32-bit range and comes out negative,
so the target is never met and the catalog has all `10 * 11585 * 11585 =
1342122250` entries, not the `1342122241` of the formula. -/
theorem generateFeatures_46341_all_cells :
    ∃ fs, generateFeatures ⟨46341, 46341⟩ 1 = Except.ok fs ∧
      (fs.length : Int) = 1342122250 ∧
      (if min (1 : Int) (Int.tdiv (46341 * 46341) 16) % 10 = 0
        then 10 * (Int.tdiv 46341 4 * Int.tdiv 46341 4)
        else 10 * (Int.tdiv 46341 4 * Int.tdiv 46341 4)
          - (10 - min (1 : Int) (Int.tdiv (46341 * 46341) 16) % 10)) = 1342122241 ∧
      wrapInt32 (46341 * 46341) = -2147479015 := by
  refine ⟨_, generateFeatures_ok ⟨46341, 46341⟩ 1 (by decide), ?_, by decide, by decide⟩
  have hcells : (Int.tdiv 46341 4).toNat * (Int.tdiv 46341 4).toNat = 134212225 := by decide
  have hcount : min (1 : Int) (Int.tdiv (wrapInt32 (46341 * 46341)) 16) ≤ 0 := by decide
  show ((columnLoop (min (1 : Int) (Int.tdiv (wrapInt32 (46341 * 46341)) 16)) 46341 46341
    ([], 0)).1.length : Int) = 1342122250
  rw [columnLoop_length _ _ _ (by rw [hcells]; decide),
    iterate_countAfterCell_of_nonpos _ hcount, hcells]
  decide

/-! ## The orientation bucket of `computeChannels` -/

theorem castToInt_of_nonneg (v : ℚ) (hv : 0 ≤ v) (hfit : fitsInt32 ⌊v⌋) :
    castToInt v = ⌊v⌋ := by
  have h := truncTowardZero_of_nonneg v hv
  rw [castToInt_of_fits v (by rw [h]; exact hfit), h]

/-- In exact arithmetic an orientation in `[-180, 180)` falls in one of the
buckets `0..5`. -/
theorem histIndex_in_range (a : ℚ) (hlo : -180 ≤ a) (hhi : a < 180) :
    0 ≤ histIndex a ∧ histIndex a ≤ 5 := by
  unfold histIndex
  simp only
  have key : ∀ b : ℚ, 0 ≤ b → b < 180 → 0 ≤ castToInt (b / 30) ∧ castToInt (b / 30) ≤ 5 := by
    intro b hb0 hb
    have h0 : (0 : ℚ) ≤ b / 30 := by positivity
    have hlo' : 0 ≤ ⌊b / 30⌋ := Int.floor_nonneg.mpr h0
    have hhi' : ⌊b / 30⌋ < 6 := by
      rw [Int.floor_lt]
      push_cast
      linarith
    rw [castToInt_of_nonneg _ h0 ⟨by omega, by omega⟩]
    omega
  split_ifs with hneg
  · exact key (a + 180) (by linarith) (by linarith)
  · exact key a (by linarith) hhi

/-- Every orientation from 180 up to (not including) 210 degrees falls in
bucket `6`: a value marginally above 180 behaves like 180 itself. -/
theorem histIndex_from_180 (a : ℚ) (hlo : 180 ≤ a) (hhi : a < 210) : histIndex a = 6 := by
  unfold histIndex
  simp only
  rw [if_neg (by linarith)]
  have h0 : (0 : ℚ) ≤ a / 30 := by positivity
  have hfl : ⌊a / 30⌋ = 6 := by
    rw [Int.floor_eq_iff]
    constructor
    · push_cast
      linarith
    · push_cast
      linarith
  rw [castToInt_of_nonneg _ h0 (by rw [hfl]; exact ⟨by decide, by decide⟩), hfl]

/-- C11 (evaluation at the boundary): an orientation of exactly 180 degrees is
not below 0, so nothing is added, and `(int)(180 / 30)` is bucket `6`, not `5`;
the write into the six-bucket histogram is outside it. -/
theorem histIndex_180_is_bucket_6 :
    histIndex 180 = 6 ∧
      histStep (fun _ => 0) 180 1 = Except.error Err.outOfBounds := by
  have h : histIndex 180 = 6 := by
    unfold histIndex
    have e : (if (180 : ℚ) < 0 then (180 : ℚ) + 180 else 180) / 30 = ((6 : Int) : ℚ) := by
      norm_num
    simp only [e]
    exact castToInt_intCast 6 ⟨by decide, by decide⟩
  refine ⟨h, ?_⟩
  unfold histStep
  simp only [h]
  rfl

/-! ## Preconditions and state -/

theorem evaluate_assertFailed (self : ACFFeatureEvaluatorImpl) (i : Nat)
    (h : self.channels_.length ≠ 10 ∨ self.features_.length ≤ i) :
    evaluate self i = Except.error Err.assertFailed := by
  unfold evaluate
  by_cases h10 : self.channels_.length = 10
  · rcases h with h | h
    · exact absurd h10 h
    · rw [if_neg (not_not.mpr h10), if_pos (by omega)]
  · rw [if_pos h10]

/-- C12: `evaluate(i)` fails, returning no value, whenever the evaluator does
not hold exactly 10 pooled channels and whenever `i` is not below the catalog
size. -/
theorem evaluate_fails_precondition (self : ACFFeatureEvaluatorImpl) (i : Nat)
    (h : self.channels_.length ≠ 10 ∨ self.features_.length ≤ i) :
    evaluate self i = Except.error Err.assertFailed ∧
      ¬ ∃ v, evaluate self i = Except.ok v := by
  have hfail := evaluate_assertFailed self i h
  refine ⟨hfail, ?_⟩
  rintro ⟨v, hv⟩
  rw [hfail] at hv
  cases hv

/-- Witness for C12: `evaluate(5)` on a catalog of 3 entries fails although 10
channels are bound, and `evaluate(0)` fails when no channel is bound. -/
theorem evaluate_fails_precondition_witness :
    (evaluate threeEvaluator 5 = Except.error Err.assertFailed ∧
      ¬ ∃ v, evaluate threeEvaluator 5 = Except.ok v) ∧
    (evaluate freshEvaluator 0 = Except.error Err.assertFailed ∧
      ¬ ∃ v, evaluate freshEvaluator 0 = Except.ok v) :=
  ⟨evaluate_fails_precondition threeEvaluator 5 (Or.inr (by decide)),
    evaluate_fails_precondition freshEvaluator 0 (Or.inl (by decide))⟩

/-- C13: constructing an evaluator fails exactly when the catalog is empty;
for a non-empty catalog it yields an evaluator holding that catalog, in the
same order, with no channels bound. -/
theorem createACFFeatureEvaluator_iff (features : List Point3i) :
    ((∃ e, createACFFeatureEvaluator features = Except.error e) ↔ features = []) ∧
      (features ≠ [] →
        ∃ ev, createACFFeatureEvaluator features = Except.ok ev ∧
          ev.features_ = features ∧ ev.channels_ = []) := by
  unfold createACFFeatureEvaluator
  cases features with
  | nil =>
    refine ⟨⟨fun _ => rfl, fun _ => ⟨Err.assertFailed, rfl⟩⟩, fun h => absurd rfl h⟩
  | cons p ps =>
    have hpos : (p :: ps).length > 0 := by simp
    rw [if_pos hpos]
    refine ⟨⟨?_, fun h => by cases h⟩, fun _ => ⟨_, rfl, rfl, rfl⟩⟩
    rintro ⟨e, he⟩
    cases he

/-- Witness for C13 on a two-entry catalog. -/
theorem createACFFeatureEvaluator_iff_witness :
    ∃ ev, createACFFeatureEvaluator [Point3i.mk 1 0 3, Point3i.mk 0 1 0] = Except.ok ev ∧
      ev.features_ = [Point3i.mk 1 0 3, Point3i.mk 0 1 0] ∧ ev.channels_ = [] :=
  (createACFFeatureEvaluator_iff [Point3i.mk 1 0 3, Point3i.mk 0 1 0]).2 (by decide)

theorem forall₂_getElem?_left {α β : Type} {R : α → β → Prop} {l₁ : List α} {l₂ : List β}
    (h : List.Forall₂ R l₁ l₂) (i : Nat) (a : α) (ha : l₁[i]? = some a) :
    ∃ b, l₂[i]? = some b ∧ R a b := by
  induction h generalizing i with
  | nil => simp at ha
  | @cons a' b' _ _ hab _ ih =>
    cases i with
    | zero =>
      simp only [List.getElem?_cons_zero, Option.some.injEq] at ha
      subst ha
      exact ⟨b', by simp, hab⟩
    | succ i =>
      simp only [List.getElem?_cons_succ] at ha
      simpa using ih i ha

/-- C14: `setChannels` fails for every stack whose length is not 10; for a
stack of exactly 10 channels whose dimensions are multiples of 4 it succeeds
and leaves exactly 10 pooled channels, the `i`-th being the pooled channel of
the `i`-th input. -/
theorem setChannels_count (self : ACFFeatureEvaluatorImpl) (channels : List (Mat ℚ)) :
    (channels.length ≠ 10 →
      (setChannels self channels).1 = Except.error Err.assertFailed) ∧
    (channels.length = 10 → (∀ ch ∈ channels, ch.rows % 4 = 0 ∧ ch.cols % 4 = 0) →
      (setChannels self channels).1 = Except.ok () ∧
      (setChannels self channels).2.channels_.length = 10 ∧
      ∀ (i : Nat) (channel : Mat ℚ), channels[i]? = some channel →
        ∃ pooled, (setChannels self channels).2.channels_[i]? = some pooled ∧
          poolChannel channel = Except.ok pooled) := by
  constructor
  · intro hne
    unfold setChannels
    simp only [hne, not_false_eq_true, if_true]
  · intro h10 hdim
    obtain ⟨ps, hps, hall⟩ := setChannels_ok self channels h10 hdim
    rw [hps]
    refine ⟨rfl, by simpa [h10] using hall.length_eq.symm, ?_⟩
    intro i channel hch
    exact forall₂_getElem?_left hall i channel hch

/-- Witness for C14: a stack of 3 channels is refused, a stack of ten `4 × 4`
channels is pooled. -/
theorem setChannels_count_witness :
    (setChannels freshEvaluator (List.replicate 3 halfChannel)).1
        = Except.error Err.assertFailed ∧
    ((setChannels freshEvaluator (List.replicate 10 halfChannel)).1 = Except.ok () ∧
      (setChannels freshEvaluator (List.replicate 10 halfChannel)).2.channels_.length = 10 ∧
      ∀ (i : Nat) (channel : Mat ℚ), (List.replicate 10 halfChannel)[i]? = some channel →
        ∃ pooled, (setChannels freshEvaluator (List.replicate 10 halfChannel)).2.channels_[i]?
            = some pooled ∧
          poolChannel channel = Except.ok pooled) :=
  ⟨(setChannels_count freshEvaluator (List.replicate 3 halfChannel)).1 (by decide),
    (setChannels_count freshEvaluator (List.replicate 10 halfChannel)).2 (by decide)
      (by
        intro ch hch
        rw [List.eq_of_mem_replicate hch]
        exact ⟨rfl, rfl⟩)⟩

/-- C15: `generateFeatures(windowSize, count)` fails exactly when `count ≤ 0`;
for `count > 0` it returns a catalog, whatever the window size. -/
theorem generateFeatures_fails_iff (window_size : Size) (count : Int) :
    ((∃ e, generateFeatures window_size count = Except.error e) ↔ count ≤ 0) ∧
      (0 < count → ∃ fs, generateFeatures window_size count = Except.ok fs) := by
  constructor
  · constructor
    · rintro ⟨e, he⟩
      by_contra hpos
      rw [generateFeatures_ok window_size count (by omega)] at he
      cases he
    · intro hle
      refine ⟨Err.assertFailed, ?_⟩
      unfold generateFeatures
      rw [if_pos (by omega)]
  · intro hpos
    exact ⟨_, generateFeatures_ok window_size count hpos⟩

/-- Witness for C15 on the window `(-3, 7)` with count `2`. -/
theorem generateFeatures_fails_iff_witness :
    ∃ fs, generateFeatures ⟨-3, 7⟩ 2 = Except.ok fs :=
  (generateFeatures_fails_iff ⟨-3, 7⟩ 2).2 (by decide)

/-- C16: `setPosition` only stores the window offset: the catalog and the
bound pooled channels are unchanged, and `evaluate(i)` and `evaluateAll` give
the same result or the same failure after it as before it, whatever the
library call `setTo` of `evaluateAll` does. -/
theorem setPosition_frame (self : ACFFeatureEvaluatorImpl) (position : Size) :
    (setPosition self position).position_ = position ∧
    (setPosition self position).features_ = self.features_ ∧
    (setPosition self position).channels_ = self.channels_ ∧
    (∀ i, evaluate (setPosition self position) i = evaluate self i) ∧
    ∀ (setTo : Mat Int → Mat Int → Except Err (Mat Int)) (feature_values : Mat Int),
      evaluateAll setTo (setPosition self position) feature_values
        = evaluateAll setTo self feature_values :=
  ⟨rfl, rfl, rfl, fun _ => rfl, fun _ _ => rfl⟩

/-- C19: on an evaluator with 10 pooled channels bound, `setChannels` with a
stack whose length is not 10 fails and leaves no channel bound, so every later
`evaluate(i)` fails; the catalog and the stored position are unchanged. -/
theorem setChannels_failure_unbinds (self : ACFFeatureEvaluatorImpl)
    (channels : List (Mat ℚ)) (_hbound : self.channels_.length = 10)
    (hlen : channels.length ≠ 10) :
    (setChannels self channels).1 = Except.error Err.assertFailed ∧
    (setChannels self channels).2.channels_ = [] ∧
    (setChannels self channels).2.features_ = self.features_ ∧
    (setChannels self channels).2.position_ = self.position_ ∧
    ∀ i, evaluate (setChannels self channels).2 i = Except.error Err.assertFailed := by
  have h : setChannels self channels
      = (Except.error Err.assertFailed, { self with channels_ := [] }) := by
    unfold setChannels
    simp only [hlen, not_false_eq_true, if_true]
  rw [h]
  refine ⟨rfl, rfl, rfl, rfl, ?_⟩
  intro i
  exact evaluate_assertFailed _ i (Or.inl (by simp))

/-- Witness for C19: `evaluate(0)` succeeds on the demo evaluator, and fails
after a `setChannels` call with 3 channels. -/
theorem setChannels_failure_unbinds_witness :
    evaluate demoEvaluator 0 = Except.ok 1 ∧
    (setChannels demoEvaluator (List.replicate 3 halfChannel)).1
        = Except.error Err.assertFailed ∧
    (setChannels demoEvaluator (List.replicate 3 halfChannel)).2.channels_ = [] ∧
    (setChannels demoEvaluator (List.replicate 3 halfChannel)).2.features_
        = demoEvaluator.features_ ∧
    (setChannels demoEvaluator (List.replicate 3 halfChannel)).2.position_
        = demoEvaluator.position_ ∧
    ∀ i, evaluate (setChannels demoEvaluator (List.replicate 3 halfChannel)).2 i
        = Except.error Err.assertFailed :=
  ⟨rfl, setChannels_failure_unbinds demoEvaluator (List.replicate 3 halfChannel)
    (by decide) (by decide)⟩

/-! ## Truncate, then add -/

theorem truncBlockSum_exact (channel : Mat ℚ) (r c : Nat)
    (hr : 4 * r + 4 ≤ channel.rows) (hc : 4 * c + 4 ≤ channel.cols)
    (hint : ∀ i j, i < channel.rows → j < channel.cols → ∃ z : Int, channel.data i j = z) :
    ((truncBlockSum channel r c : Int) : ℚ) = exactBlockSum channel r c := by
  unfold truncBlockSum exactBlockSum
  push_cast
  refine Finset.sum_congr rfl (fun i hi => Finset.sum_congr rfl (fun j hj => ?_))
  rw [Finset.mem_range] at hi hj
  obtain ⟨z, hz⟩ := hint (4 * r + i) (4 * c + j) (by omega) (by omega)
  rw [hz, truncTowardZero_intCast]

theorem truncBlockSum_small (channel : Mat ℚ) (r c : Nat)
    (hr : 4 * r + 4 ≤ channel.rows) (hc : 4 * c + 4 ≤ channel.cols)
    (hsmall : ∀ i j, i < channel.rows → j < channel.cols →
      -1 < channel.data i j ∧ channel.data i j < 1) :
    truncBlockSum channel r c = 0 := by
  unfold truncBlockSum
  refine Finset.sum_eq_zero (fun i hi => Finset.sum_eq_zero (fun j hj => ?_))
  rw [Finset.mem_range] at hi hj
  obtain ⟨h1, h2⟩ := hsmall (4 * r + i) (4 * c + j) (by omega) (by omega)
  exact truncTowardZero_small _ h1 h2

theorem fits_of_small (channel : Mat ℚ)
    (hsmall : ∀ i j, i < channel.rows → j < channel.cols →
      -1 < channel.data i j ∧ channel.data i j < 1) :
    ∀ i j, i < channel.rows → j < channel.cols →
      fitsInt32 (truncTowardZero (channel.data i j)) := by
  intro i j hi hj
  obtain ⟨h1, h2⟩ := hsmall i j hi hj
  rw [truncTowardZero_small _ h1 h2]
  exact ⟨by decide, by decide⟩

/-- C20 (as the code has it): for a stack of 10 channels whose rows and cols
are multiples of 4, `setChannels` stores for each channel a pooled channel
such that, when the values of the channel each truncate to an `int`, the cell
`(r, c)` is the sum over the 16 source values of the block of each value
truncated toward zero (truncate, then add), reduced to a 32-bit `int`, hence
that sum itself whenever it is an `int`; for an integer-valued channel whose
block sum is an `int` it is the exact block sum, and for a channel whose
values all lie strictly between -1 and 1 it is 0. -/
theorem setChannels_truncate_then_add (self : ACFFeatureEvaluatorImpl)
    (channels : List (Mat ℚ)) (h10 : channels.length = 10)
    (hdim : ∀ ch ∈ channels, ch.rows % 4 = 0 ∧ ch.cols % 4 = 0) :
    ∀ (i : Nat) (channel : Mat ℚ), channels[i]? = some channel →
      ∃ pooled, (setChannels self channels).2.channels_[i]? = some pooled ∧
        ∀ r c, r < channel.rows / 4 → c < channel.cols / 4 →
          ((∀ i j, i < channel.rows → j < channel.cols →
              fitsInt32 (truncTowardZero (channel.data i j))) →
            pooled.data r c = wrapInt32 (truncBlockSum channel r c) ∧
            (fitsInt32 (truncBlockSum channel r c) →
              pooled.data r c = truncBlockSum channel r c)) ∧
          ((∀ i j, i < channel.rows → j < channel.cols →
              ∃ z : Int, channel.data i j = z ∧ fitsInt32 z) →
            fitsInt32 (truncBlockSum channel r c) →
            ((pooled.data r c : Int) : ℚ) = exactBlockSum channel r c) ∧
          ((∀ i j, i < channel.rows → j < channel.cols →
              -1 < channel.data i j ∧ channel.data i j < 1) →
            pooled.data r c = 0) := by
  obtain ⟨ps, hps, hall⟩ := setChannels_ok self channels h10 hdim
  rw [hps]
  intro i channel hch
  obtain ⟨pooled, hpo, hpool⟩ := forall₂_getElem?_left hall i channel hch
  obtain ⟨hr4, hc4⟩ := hdim channel (List.getElem?_mem hch)
  obtain ⟨out, hout, orows, ocols, ocells⟩ := poolChannel_ok channel hr4 hc4
  rw [hout] at hpool
  cases hpool
  refine ⟨pooled, hpo, ?_⟩
  intro r c hr hc
  have hcell : (∀ i j, i < channel.rows → j < channel.cols →
      fitsInt32 (truncTowardZero (channel.data i j))) →
      pooled.data r c = wrapInt32 (truncBlockSum channel r c) := by
    intro hfit
    rw [ocells r c (by omega) (by omega)]
    exact pooledValue_eq channel r c (by omega) (by omega) hfit
  refine ⟨?_, ?_, ?_⟩
  · intro hfit
    refine ⟨hcell hfit, fun hsum => ?_⟩
    rw [hcell hfit, wrapInt32_of_fits _ hsum]
  · intro hint hsum
    have hfit : ∀ i j, i < channel.rows → j < channel.cols →
        fitsInt32 (truncTowardZero (channel.data i j)) := by
      intro i j hi hj
      obtain ⟨z, hz, hzfit⟩ := hint i j hi hj
      rw [hz, truncTowardZero_intCast]
      exact hzfit
    rw [hcell hfit, wrapInt32_of_fits _ hsum]
    exact truncBlockSum_exact channel r c (by omega) (by omega)
      (fun i j hi hj => (hint i j hi hj).imp (fun _ h => h.1))
  · intro hsmall
    rw [hcell (fits_of_small channel hsmall),
      truncBlockSum_small channel r c (by omega) (by omega) hsmall]
    decide

theorem truncTowardZero_three : truncTowardZero (3 : ℚ) = 3 := by
  have := truncTowardZero_intCast 3
  simpa using this

theorem truncTowardZero_big : truncTowardZero (200000000 : ℚ) = 200000000 := by
  have := truncTowardZero_intCast 200000000
  simpa using this

/-- Witness for C20 on ten `4 × 4` channels filled with `3`: the pooled cell
`(0, 0)` of the first channel is `48`. -/
theorem setChannels_truncate_then_add_witness :
    ∃ pooled, (setChannels freshEvaluator (List.replicate 10 threeChannel)).2.channels_[0]?
        = some pooled ∧ pooled.data 0 0 = 48 := by
  obtain ⟨pooled, hpo, hcells⟩ :=
    setChannels_truncate_then_add freshEvaluator (List.replicate 10 threeChannel) (by decide)
      (by
        intro ch hch
        rw [List.eq_of_mem_replicate hch]
        exact ⟨rfl, rfl⟩)
      0 threeChannel (by simp)
  refine ⟨pooled, hpo, ?_⟩
  have hsum : truncBlockSum threeChannel 0 0 = 48 := by
    rw [truncBlockSum_const threeChannel 3 0 0 (fun _ _ _ _ => rfl) (by decide) (by decide),
      truncTowardZero_three]
    decide
  have hexact := (hcells 0 0 (by decide) (by decide)).2.1
    (fun _ _ _ _ => ⟨3, by simp [threeChannel], ⟨by decide, by decide⟩⟩)
    (by rw [hsum]; exact ⟨by decide, by decide⟩)
  have hq : exactBlockSum threeChannel 0 0 = ((48 : Int) : ℚ) := by
    simp [exactBlockSum, threeChannel]
    norm_num
  rw [hq] at hexact
  exact_mod_cast hexact

/-- C20 (counterexample): on ten `4 × 4` channels filled with the integer
value `200000000`, the sum of the 16 truncated values, which is also the
exact block sum, is `3200000000`; the code adds them in an `int` and stores
`-1094967296`. -/
theorem setChannels_big_sum_wraps :
    ∃ pooled, (setChannels freshEvaluator (List.replicate 10 bigChannel)).2.channels_[0]?
        = some pooled ∧
      pooled.data 0 0 = -1094967296 ∧
      truncBlockSum bigChannel 0 0 = 3200000000 ∧
      exactBlockSum bigChannel 0 0 = 3200000000 ∧
      pooled.data 0 0 ≠ truncBlockSum bigChannel 0 0 := by
  obtain ⟨ps, hps, hall⟩ := setChannels_ok freshEvaluator (List.replicate 10 bigChannel)
    (by decide) (by
      intro ch hch
      rw [List.eq_of_mem_replicate hch]
      exact ⟨rfl, rfl⟩)
  obtain ⟨pooled, hpo, hpool⟩ :=
    forall₂_getElem?_left hall 0 bigChannel (by simp)
  obtain ⟨out, hout, orows, ocols, ocells⟩ := poolChannel_ok bigChannel rfl rfl
  rw [hout] at hpool
  cases hpool
  have hsum : truncBlockSum bigChannel 0 0 = 3200000000 := by
    rw [truncBlockSum_const bigChannel 200000000 0 0 (fun _ _ _ _ => rfl)
      (by decide) (by decide), truncTowardZero_big]
    decide
  have hcell : pooled.data 0 0 = -1094967296 := by
    rw [ocells 0 0 (by rw [orows]; decide) (by rw [ocols]; decide),
      pooledValue_eq bigChannel 0 0 (by decide) (by decide)
        (fun _ _ _ _ => by
          show fitsInt32 (truncTowardZero (200000000 : ℚ))
          rw [truncTowardZero_big]
          exact ⟨by decide, by decide⟩),
      hsum]
    decide
  have hq : exactBlockSum bigChannel 0 0 = 3200000000 := by
    simp [exactBlockSum, bigChannel]
    norm_num
  refine ⟨pooled, by rw [hps]; exact hpo, hcell, hsum, hq, ?_⟩
  rw [hcell, hsum]
  decide

/-! ## A generated catalog against matching channels -/

end cv.xobjdetect
